import Mathlib

/-!
# Verification of the nocta-ui CLI installation pipeline

Shallow embedding of the core of the `nocta-ui` CLI (Rust) in Lean 4, together
with proofs about the properties claimed by its specification.

Conventions used throughout:

* The on-disk filesystem is modelled as a total map from absolute path
  (a `String`, paths are opaque keys) to `Option` of file contents
  (`List Char`, i.e. the file's bytes); `none` means "file does not exist".
* Rust `HashMap`/`HashSet` values are modelled as association lists / lists;
  wherever the Rust code observes an iteration order of a hash container the
  model takes the enumeration as an explicit argument.
* Fallible Rust functions returning `Result` are modelled with `Except`,
  and bounded recursion replacing unbounded Rust recursion uses an explicit
  fuel parameter (`none` = fuel exhausted, proved unreachable for the fuel
  actually supplied).
-/

namespace NoctaUi

/-- Filesystem model: absolute path to file contents (`none` = absent). -/
def FS : Type := String → Option (List Char)

/-- Overwrite (or create) a file.  Models `nocta_core::fs::write_file`, which
creates parent directories and writes the full contents. -/
def write_file (fs : FS) (path : String) (contents : List Char) : FS :=
  fun p => if p = path then some contents else fs p

/-- `FileChange` from `commands/add.rs`: the rollback log entry recording, for
one absolute path, its pre-run contents (`none` = the file did not exist). -/
structure FileChange where
  path : String
  previous_contents : Option (List Char)

/-- `ensure_change_record` from `commands/add.rs` (lines 1280-1297): on first
touch of a path, snapshot the current on-disk contents (or record "absent")
by appending to the change log; later touches of the same path are no-ops. -/
def ensure_change_record (fs : FS) (path : String) (changes : List FileChange) :
    List FileChange :=
  if changes.any (fun change => change.path = path) then changes
  else changes ++ [⟨path, fs path⟩]

/-- The fields of `ComponentFileWithContent` consumed by the embedded
functions: destination workspace and absolute path, normalized content, and
the owning component's slug and file type (used by the export sync). -/
structure ComponentFileWithContent where
  workspace_id : String
  absolute_path : String
  content : List Char
  component_slug : String
  file_type : String

/-- One iteration of the loop body of `write_component_files`: record the
change, then write the file (skipped entirely in dry-run mode). -/
def writeOneComponentFile (dry_run : Bool) (st : FS × List FileChange)
    (file : ComponentFileWithContent) : FS × List FileChange :=
  if dry_run then st
  else
    let changes := ensure_change_record st.1 file.absolute_path st.2
    (write_file st.1 file.absolute_path file.content, changes)

/-- `write_component_files` from `commands/add.rs` (lines 1264-1278): walk the
planned files; in dry-run mode do nothing, otherwise snapshot-then-write each. -/
def write_component_files (files : List ComponentFileWithContent)
    (dry_run : Bool) (fs : FS) (file_changes : List FileChange) :
    FS × List FileChange :=
  files.foldl (writeOneComponentFile dry_run) (fs, file_changes)

/-- Undo a single `FileChange`: restore the snapshot bytes, or remove the file
if it had not existed before the run. -/
def rollbackOne (fs : FS) (change : FileChange) : FS :=
  match change.previous_contents with
  | some contents => fun p => if p = change.path then some contents else fs p
  | none => fun p => if p = change.path then none else fs p

/-- `rollback_file_changes` from `commands/add.rs` (lines 1299-1322): replay
the change log in reverse order, restoring snapshots and deleting files that
did not previously exist. -/
def rollback_file_changes (changes : List FileChange) (fs : FS) : FS :=
  changes.reverse.foldl rollbackOne fs

theorem rollback_cons (c : FileChange) (rest : List FileChange) (fs : FS) :
    rollback_file_changes (c :: rest) fs =
      rollbackOne (rollback_file_changes rest fs) c := by
  simp [rollback_file_changes, List.foldl_append]

theorem rollback_append_single (changes : List FileChange) (e : FileChange)
    (fs : FS) :
    rollback_file_changes (changes ++ [e]) fs =
      rollback_file_changes changes (rollbackOne fs e) := by
  simp [rollback_file_changes, List.reverse_append]

/-- Off the recorded paths, rollback only depends on the filesystem's value at
the point observed. -/
theorem rollback_congr_at (changes : List FileChange) (p : String)
    (fs fs' : FS) (h : fs p = fs' p) :
    rollback_file_changes changes fs p = rollback_file_changes changes fs' p := by
  induction changes generalizing fs fs' with
  | nil => simpa [rollback_file_changes]
  | cons c rest ih =>
      rw [rollback_cons, rollback_cons]
      unfold rollbackOne
      cases c.previous_contents with
      | some contents =>
          by_cases hp : p = c.path <;> simp [hp, ih fs fs' h]
      | none =>
          by_cases hp : p = c.path <;> simp [hp, ih fs fs' h]

/-- At a recorded path, the rollback result is determined by the log alone. -/
theorem rollback_mem_det (changes : List FileChange) (p : String)
    (hp : p ∈ changes.map FileChange.path) (fs fs' : FS) :
    rollback_file_changes changes fs p = rollback_file_changes changes fs' p := by
  induction changes generalizing fs fs' with
  | nil => simp at hp
  | cons c rest ih =>
      rw [rollback_cons, rollback_cons]
      unfold rollbackOne
      simp only [List.map_cons, List.mem_cons] at hp
      rcases hp with h | h
      · cases hcp : c.previous_contents <;> simp [h]
      · cases hcp : c.previous_contents with
        | some contents =>
            by_cases hpc : p = c.path <;> simp [hpc, ih h fs fs']
        | none =>
            by_cases hpc : p = c.path <;> simp [hpc, ih h fs fs']

/-- Restoring a freshly snapshotted overwrite undoes it exactly. -/
theorem rollbackOne_write (fs : FS) (path : String) (contents : List Char)
    (p : String) :
    rollbackOne (write_file fs path contents) ⟨path, fs path⟩ p = fs p := by
  unfold rollbackOne write_file
  cases h : fs path <;> by_cases hp : p = path <;> simp [h, hp]

/-- Invariant carried along the write loop of `write_component_files`:
`fs0` is the pre-run filesystem. -/
def WriteInv (fs0 : FS) (st : FS × List FileChange) : Prop :=
  (st.2.map FileChange.path).Nodup ∧
  (∀ change ∈ st.2, change.previous_contents = fs0 change.path) ∧
  (∀ p, p ∉ st.2.map FileChange.path → st.1 p = fs0 p) ∧
  (∀ p, rollback_file_changes st.2 st.1 p = fs0 p)

theorem ensure_change_record_mem (fs : FS) (path : String)
    (changes : List FileChange) (h : path ∈ changes.map FileChange.path) :
    ensure_change_record fs path changes = changes := by
  unfold ensure_change_record
  rcases List.mem_map.mp h with ⟨c, hc, hcp⟩
  rw [if_pos]
  exact List.any_eq_true.mpr ⟨c, hc, by simp [hcp]⟩

theorem ensure_change_record_not_mem (fs : FS) (path : String)
    (changes : List FileChange) (h : path ∉ changes.map FileChange.path) :
    ensure_change_record fs path changes = changes ++ [⟨path, fs path⟩] := by
  unfold ensure_change_record
  rw [if_neg]
  intro hc
  rcases List.any_eq_true.mp hc with ⟨c, hcmem, hcp⟩
  exact h (List.mem_map.mpr ⟨c, hcmem, by simpa using hcp⟩)

theorem writeOne_false_eq (st : FS × List FileChange)
    (file : ComponentFileWithContent) :
    writeOneComponentFile false st file =
      (write_file st.1 file.absolute_path file.content,
       ensure_change_record st.1 file.absolute_path st.2) := rfl

theorem writeOne_preserves_inv (fs0 : FS) (st : FS × List FileChange)
    (file : ComponentFileWithContent) (hinv : WriteInv fs0 st) :
    WriteInv fs0 (writeOneComponentFile false st file) := by
  obtain ⟨hnd, hsnap, hoff, hroll⟩ := hinv
  rw [writeOne_false_eq]
  by_cases hpmem : file.absolute_path ∈ st.2.map FileChange.path
  · -- the path is already recorded: the log is unchanged
    rw [ensure_change_record_mem st.1 file.absolute_path st.2 hpmem]
    refine ⟨hnd, hsnap, ?_, ?_⟩
    · intro p hp
      have hneq : p ≠ file.absolute_path := fun h => hp (h ▸ hpmem)
      simpa [write_file, hneq] using hoff p hp
    · intro p
      by_cases hpf : p ∈ st.2.map FileChange.path
      · rw [rollback_mem_det st.2 p hpf _ st.1]; exact hroll p
      · have hneq : p ≠ file.absolute_path := fun h => hpf (h ▸ hpmem)
        rw [rollback_congr_at st.2 p _ st.1 (by simp [write_file, hneq])]
        exact hroll p
  · -- first touch: the pre-write contents are appended to the log
    rw [ensure_change_record_not_mem st.1 file.absolute_path st.2 hpmem]
    refine ⟨?_, ?_, ?_, ?_⟩
    · simpa [List.nodup_append, hnd] using fun hx => hpmem hx
    · intro change hc
      rcases List.mem_append.mp hc with h | h
      · exact hsnap change h
      · simp only [List.mem_singleton] at h
        subst h
        simpa using congrArg some (hoff _ hpmem)
    · intro p hp
      simp only [List.map_append, List.map_cons, List.map_nil,
        List.mem_append] at hp
      push_neg at hp
      obtain ⟨hp1, hp2⟩ := hp
      have hp2' : p ≠ file.absolute_path := by simpa using hp2
      simpa [write_file, hp2'] using hoff p hp1
    · intro p
      rw [rollback_append_single]
      have hwr : ∀ q,
          rollbackOne (write_file st.1 file.absolute_path file.content)
            ⟨file.absolute_path, st.1 file.absolute_path⟩ q = st.1 q := by
        intro q
        exact rollbackOne_write st.1 file.absolute_path file.content q
      rw [rollback_congr_at st.2 p _ st.1 (hwr p)]
      exact hroll p

theorem write_loop_inv (fs0 : FS) (files : List ComponentFileWithContent)
    (st : FS × List FileChange) (hinv : WriteInv fs0 st) :
    WriteInv fs0 (files.foldl (writeOneComponentFile false) st) := by
  induction files generalizing st with
  | nil => simpa using hinv
  | cons f rest ih =>
      simpa using ih _ (writeOne_preserves_inv fs0 st f hinv)

/-- C1. For every run of the add command, each written path is snapshotted into
the change log at most once (first touch wins, recording its pre-run bytes or
"absent"), and applying `rollback_file_changes` to the log replays entries in
reverse order so that every path that existed before the run is restored to
byte-identical pre-run content and every path that did not previously exist is
removed: the rollback of the post-run filesystem is exactly the pre-run one. -/
theorem add_write_rollback_roundtrip (fs : FS)
    (files : List ComponentFileWithContent) :
    ((write_component_files files false fs []).2.map FileChange.path).Nodup ∧
    (∀ change ∈ (write_component_files files false fs []).2,
      change.previous_contents = fs change.path) ∧
    (∀ p, rollback_file_changes (write_component_files files false fs []).2
      (write_component_files files false fs []).1 p = fs p) := by
  have hstart : WriteInv fs (fs, []) := by
    refine ⟨by simp, by simp, by simp, ?_⟩
    intro p; simp [rollback_file_changes]
  have := write_loop_inv fs files (fs, []) hstart
  exact ⟨this.1, this.2.1, this.2.2.2⟩

/-!
## Dependency Graph Resolver (`registry.rs`)

`fetch_component_with_dependencies` / `collect_component_with_dependencies`
from `src/crates/core/src/registry.rs` (lines 338-393).  The registry's
`HashMap<String, Component>` is modelled as an association list queried only
through lookup (the Rust code never iterates it here); of the registry
`Component` record only the `internal_dependencies` field is consumed by the
traversal, so the embedding carries exactly that field.  The unbounded Rust
recursion is modelled with a fuel parameter; `none` means "fuel exhausted"
and is proved unreachable for the fuel supplied by the top-level entry point.
-/

/-- The slice of `types.rs::Component` consumed by the embedded functions:
the internal-dependency slugs (dependency resolver) and the export symbol
names (export barrel merger). -/
structure Component where
  internal_dependencies : List String
  exports : List String
  deriving DecidableEq

/-- `HashMap::get` on the modelled registry component map. -/
def lookupComp (cm : List (String × Component)) (slug : String) :
    Option Component :=
  (cm.find? (fun entry => entry.1 = slug)).map (fun entry => entry.2)

/-- The mutable traversal state of `collect_component_with_dependencies`:
the `visiting` set (current DFS stack), the `visited` set, and the output
accumulator `ordered`. -/
structure DfsState where
  visiting : List String
  visited : List String
  ordered : List (String × Component)
  deriving DecidableEq

/-- `collect_component_with_dependencies` (registry.rs lines 358-393) with
explicit fuel: check `visited`, insert into `visiting` (skip if already
present — this is the cycle guard), look the slug up (`ComponentNotFound`
error when absent), recurse into each internal dependency in order, then move
the slug from `visiting` to `visited` and append it to `ordered`. -/
def collectF (cm : List (String × Component)) :
    Nat → String → DfsState → Option (Except String DfsState)
  | 0, _, _ => none
  | Nat.succ n, slug, st =>
    if slug ∈ st.visited then some (Except.ok st)
    else if slug ∈ st.visiting then some (Except.ok st)
    else
      match lookupComp cm slug with
      | none => some (Except.error slug)
      | some comp =>
        let st1 : DfsState := ⟨slug :: st.visiting, st.visited, st.ordered⟩
        match comp.internal_dependencies.foldl
            (fun acc dep =>
              match acc with
              | some (Except.ok s) => collectF cm n dep s
              | other => other)
            (some (Except.ok st1)) with
        | none => none
        | some (Except.error e) => some (Except.error e)
        | some (Except.ok st2) =>
          some (Except.ok ⟨st2.visiting.erase slug, slug :: st2.visited,
            st2.ordered ++ [(slug, comp)]⟩)

/-- The dependency loop of `collect_component_with_dependencies`, as a
standalone function (identical to the fold inlined in `collectF`). -/
def depsFold (cm : List (String × Component)) (n : Nat) (deps : List String)
    (st : DfsState) : Option (Except String DfsState) :=
  deps.foldl
    (fun acc dep =>
      match acc with
      | some (Except.ok s) => collectF cm n dep s
      | other => other)
    (some (Except.ok st))

/-- `fetch_component_with_dependencies` (registry.rs lines 338-356): run the
DFS from empty state.  The fuel `cm.length + 1` is proved sufficient below
(`collectF_no_fuel_exhaustion`), so the `none` case never arises. -/
def fetch_component_with_dependencies (cm : List (String × Component))
    (slug : String) : Option (Except String (List (String × Component))) :=
  match collectF cm (cm.length + 1) slug ⟨[], [], []⟩ with
  | none => none
  | some (Except.error e) => some (Except.error e)
  | some (Except.ok st) => some (Except.ok st.ordered)

/-- A stuck (error or fuel-exhausted) accumulator passes through the loop. -/
theorem depsFold_stuck (cm : List (String × Component)) (n : Nat)
    (deps : List String)
    (acc : Option (Except String DfsState))
    (hacc : (∀ st, acc ≠ some (Except.ok st))) :
    deps.foldl
      (fun acc dep =>
        match acc with
        | some (Except.ok s) => collectF cm n dep s
        | other => other)
      acc = acc := by
  induction deps with
  | nil => rfl
  | cons d ds ih =>
      rcases acc with _ | res
      · simpa using ih
      · rcases res with e | st
        · simpa using ih
        · exact absurd rfl (hacc st)

theorem depsFold_nil (cm : List (String × Component)) (n : Nat)
    (st : DfsState) : depsFold cm n [] st = some (Except.ok st) := rfl

theorem depsFold_cons (cm : List (String × Component)) (n : Nat)
    (d : String) (ds : List String) (st : DfsState) :
    depsFold cm n (d :: ds) st =
      match collectF cm n d st with
      | some (Except.ok s) => depsFold cm n ds s
      | other => other := by
  unfold depsFold
  rw [List.foldl_cons]
  rcases h : collectF cm n d st with _ | res
  · simp only [h]
    exact depsFold_stuck cm n ds none (fun st hst => by cases hst)
  · rcases res with e | s
    · simp only [h]
      exact depsFold_stuck cm n ds (some (Except.error e))
        (fun st hst => by cases hst)
    · simp only [h]

/-- Unfolding of `collectF` at positive fuel, phrased through `depsFold`. -/
theorem collectF_succ (cm : List (String × Component)) (n : Nat)
    (slug : String) (st : DfsState) :
    collectF cm (n + 1) slug st =
      if slug ∈ st.visited then some (Except.ok st)
      else if slug ∈ st.visiting then some (Except.ok st)
      else
        match lookupComp cm slug with
        | none => some (Except.error slug)
        | some comp =>
          match depsFold cm n comp.internal_dependencies
              ⟨slug :: st.visiting, st.visited, st.ordered⟩ with
          | none => none
          | some (Except.error e) => some (Except.error e)
          | some (Except.ok st2) =>
            some (Except.ok ⟨st2.visiting.erase slug, slug :: st2.visited,
              st2.ordered ++ [(slug, comp)]⟩) := rfl

/-- The internal-dependency edge relation of a registry component map:
`step cm a b` holds when `a`'s registry entry declares `b` as an internal
dependency. -/
def step (cm : List (String × Component)) (a b : String) : Prop :=
  ∃ c, lookupComp cm a = some c ∧ b ∈ c.internal_dependencies

/-- Reachability along internal-dependency edges (reflexive-transitive). -/
def Reach (cm : List (String × Component)) (a b : String) : Prop :=
  Relation.ReflTransGen (step cm) a b

/-- Structural facts about a successful `collectF` call: the `visiting` stack
is restored, `visited` only grows, everything newly visited was not on the
stack and is reachable from the processed slug, and the slug itself ends up
visited (unless it was skipped as a back-edge). -/
theorem collectF_shape (cm : List (String × Component)) :
    ∀ n slug st st', collectF cm n slug st = some (Except.ok st') →
      st'.visiting = st.visiting ∧
      (∀ x, x ∈ st.visited → x ∈ st'.visited) ∧
      (∀ x, x ∈ st'.visited → x ∈ st.visited ∨ x ∉ st.visiting) ∧
      (slug ∈ st'.visited ∨ slug ∈ st.visiting) ∧
      (∀ x, x ∈ st'.visited → x ∈ st.visited ∨ Reach cm slug x) := by
  intro n
  induction n with
  | zero => intro slug st st' h; simp [collectF] at h
  | succ n ih =>
      have hfold : ∀ ds st st',
          depsFold cm n ds st = some (Except.ok st') →
          st'.visiting = st.visiting ∧
          (∀ x, x ∈ st.visited → x ∈ st'.visited) ∧
          (∀ x, x ∈ st'.visited → x ∈ st.visited ∨ x ∉ st.visiting) ∧
          (∀ d ∈ ds, d ∈ st'.visited ∨ d ∈ st'.visiting) ∧
          (∀ x, x ∈ st'.visited →
            x ∈ st.visited ∨ ∃ d ∈ ds, Reach cm d x) := by
        intro ds
        induction ds with
        | nil =>
            intro st st' h
            rw [depsFold_nil] at h
            obtain rfl : st = st' := by simpa using h
            exact ⟨rfl, fun x hx => hx, fun x hx => Or.inl hx,
              fun d hd => absurd hd (List.not_mem_nil d),
              fun x hx => Or.inl hx⟩
        | cons d ds ihds =>
            intro st st' h
            rw [depsFold_cons] at h
            rcases hd : collectF cm n d st with _ | res
            · rw [hd] at h; cases h
            · rcases res with e | s1
              · rw [hd] at h; cases h
              · rw [hd] at h
                obtain ⟨hv1, hg1, hn1, hs1, hr1⟩ := ih d st s1 hd
                obtain ⟨hv2, hg2, hn2, hds2, hr2⟩ := ihds s1 st' h
                refine ⟨hv2.trans hv1, fun x hx => hg2 x (hg1 x hx),
                  ?_, ?_, ?_⟩
                · intro x hx
                  rcases hn2 x hx with hx1 | hx1
                  · rcases hn1 x hx1 with hx2 | hx2
                    · exact Or.inl hx2
                    · exact Or.inr hx2
                  · rw [hv1] at hx1
                    exact Or.inr hx1
                · intro d' hd'
                  rcases List.mem_cons.mp hd' with rfl | hd'
                  · rcases hs1 with hs | hs
                    · exact Or.inl (hg2 _ hs)
                    · rw [hv2, hv1]; exact Or.inr hs
                  · exact hds2 d' hd'
                · intro x hx
                  rcases hr2 x hx with hx1 | ⟨d', hd', hrx⟩
                  · rcases hr1 x hx1 with hx2 | hx2
                    · exact Or.inl hx2
                    · exact Or.inr ⟨d, List.mem_cons_self d ds, hx2⟩
                  · exact Or.inr ⟨d', List.mem_cons_of_mem d hd', hrx⟩
      intro slug st st' h
      rw [collectF_succ] at h
      by_cases h1 : slug ∈ st.visited
      · rw [if_pos h1] at h
        obtain rfl : st = st' := by simpa using h
        exact ⟨rfl, fun x hx => hx, fun x hx => Or.inl hx, Or.inl h1,
          fun x hx => Or.inl hx⟩
      · rw [if_neg h1] at h
        by_cases h2 : slug ∈ st.visiting
        · rw [if_pos h2] at h
          obtain rfl : st = st' := by simpa using h
          exact ⟨rfl, fun x hx => hx, fun x hx => Or.inl hx, Or.inr h2,
            fun x hx => Or.inl hx⟩
        · rw [if_neg h2] at h
          rcases hlk : lookupComp cm slug with _ | comp
          · rw [hlk] at h; cases h
          · simp only [hlk] at h
            rcases hdf : depsFold cm n comp.internal_dependencies
                ⟨slug :: st.visiting, st.visited, st.ordered⟩ with _ | res
            · rw [hdf] at h; cases h
            · rcases res with e | st2
              · simp only [hdf] at h; cases h
              · simp only [hdf, Option.some.injEq, Except.ok.injEq] at h
                obtain rfl : (⟨st2.visiting.erase slug, slug :: st2.visited,
                    st2.ordered ++ [(slug, comp)]⟩ : DfsState) = st' := h
                obtain ⟨hv2, hg2, hn2, hds2, hr2⟩ := hfold _ _ _ hdf
                simp only at hv2 hg2 hn2 hr2
                constructor
                · show (st2.visiting.erase slug) = st.visiting
                  rw [hv2]
                  exact List.erase_cons_head slug st.visiting
                refine ⟨fun x hx => List.mem_cons_of_mem _ (hg2 x hx),
                  ?_, Or.inl (List.mem_cons_self _ _), ?_⟩
                · intro x hx
                  rcases List.mem_cons.mp hx with rfl | hx
                  · exact Or.inr h2
                  · rcases hn2 x hx with hx1 | hx1
                    · exact Or.inl hx1
                    · exact Or.inr (fun hc => hx1 (List.mem_cons_of_mem _ hc))
                · intro x hx
                  rcases List.mem_cons.mp hx with rfl | hx
                  · exact Or.inr Relation.ReflTransGen.refl
                  · rcases hr2 x hx with hx1 | ⟨d, hd, hrx⟩
                    · exact Or.inl hx1
                    · refine Or.inr (Relation.ReflTransGen.head ⟨comp, hlk, hd⟩ hrx)

theorem filter_length_le_of_imp {α : Type} (l : List α) (p q : α → Bool)
    (h : ∀ a, p a = true → q a = true) :
    (l.filter p).length ≤ (l.filter q).length := by
  induction l with
  | nil => simp
  | cons a l ih =>
      by_cases hp : p a = true
      · rw [List.filter_cons_of_pos hp, List.filter_cons_of_pos (h a hp)]
        simpa using ih
      · rw [List.filter_cons_of_neg hp]
        by_cases hq : q a = true
        · rw [List.filter_cons_of_pos hq]
          exact le_trans ih (Nat.le_succ _)
        · rw [List.filter_cons_of_neg hq]
          exact ih

theorem filter_length_lt_of_imp {α : Type} (l : List α) (p q : α → Bool)
    (h : ∀ a, p a = true → q a = true) (a0 : α) (ha0 : a0 ∈ l)
    (hq : q a0 = true) (hp : p a0 = false) :
    (l.filter p).length < (l.filter q).length := by
  induction l with
  | nil => simp at ha0
  | cons a l ih =>
      rcases List.mem_cons.mp ha0 with rfl | ha0
      · rw [List.filter_cons_of_neg (by simp [hp]), List.filter_cons_of_pos hq]
        exact Nat.lt_succ_of_le (filter_length_le_of_imp l p q h)
      · by_cases hpa : p a = true
        · rw [List.filter_cons_of_pos hpa, List.filter_cons_of_pos (h a hpa)]
          exact Nat.succ_lt_succ (ih ha0)
        · rw [List.filter_cons_of_neg hpa]
          by_cases hqa : q a = true
          · rw [List.filter_cons_of_pos hqa]
            exact Nat.lt_succ_of_lt (ih ha0)
          · rw [List.filter_cons_of_neg hqa]
            exact ih ha0

/-- Registry slugs not yet on the DFS stack nor fully processed: the measure
that shrinks every time `collect_component_with_dependencies` recurses. -/
def remainingKeys (cm : List (String × Component)) (st : DfsState) : Nat :=
  ((cm.map Prod.fst).filter
    (fun k => k ∉ st.visiting ∧ k ∉ st.visited)).length

theorem remainingKeys_mono (cm : List (String × Component))
    (st st' : DfsState)
    (h : ∀ x, x ∈ st.visiting ∨ x ∈ st.visited →
      x ∈ st'.visiting ∨ x ∈ st'.visited) :
    remainingKeys cm st' ≤ remainingKeys cm st := by
  apply filter_length_le_of_imp
  intro a ha
  simp only [decide_eq_true_eq, Bool.and_eq_true, decide_not,
    Bool.not_eq_true', decide_eq_false_iff_not] at ha ⊢
  constructor
  · intro hc; exact absurd (h a (Or.inl hc)) (by tauto)
  · intro hc; exact absurd (h a (Or.inr hc)) (by tauto)

theorem remainingKeys_push (cm : List (String × Component)) (st : DfsState)
    (slug : String) (ordered : List (String × Component))
    (hk : slug ∈ cm.map Prod.fst) (hv : slug ∉ st.visiting)
    (hvd : slug ∉ st.visited) :
    remainingKeys cm ⟨slug :: st.visiting, st.visited, ordered⟩ <
      remainingKeys cm st := by
  refine filter_length_lt_of_imp _ _ _ ?_ slug hk (by simp [hv, hvd])
    (by simp)
  intro a ha
  simp only [decide_eq_true_eq, Bool.and_eq_true, decide_not,
    Bool.not_eq_true', decide_eq_false_iff_not, List.mem_cons] at ha ⊢
  tauto

theorem lookupComp_mem (cm : List (String × Component)) (slug : String)
    (c : Component) (h : lookupComp cm slug = some c) :
    slug ∈ cm.map Prod.fst := by
  unfold lookupComp at h
  rcases hf : cm.find? (fun entry => entry.1 = slug) with _ | entry
  · rw [hf] at h; cases h
  · have hmem := List.mem_of_find?_eq_some hf
    have hpred := List.find?_some hf
    simp only [decide_eq_true_eq] at hpred
    exact List.mem_map.mpr ⟨entry, hmem, hpred⟩

/-- Termination: with fuel exceeding the number of unprocessed registry keys,
`collectF` never exhausts its fuel.  This is the faithfulness proof for the
fuel encoding of the unbounded Rust recursion. -/
theorem collectF_no_fuel_exhaustion (cm : List (String × Component)) :
    ∀ n st slug, remainingKeys cm st < n → collectF cm n slug st ≠ none := by
  intro n
  induction n with
  | zero => intro st slug h; omega
  | succ n ih =>
      have hfold : ∀ ds st, remainingKeys cm st < n →
          depsFold cm n ds st ≠ none := by
        intro ds
        induction ds with
        | nil => intro st h; rw [depsFold_nil]; simp
        | cons d ds ihds =>
            intro st h
            rw [depsFold_cons]
            rcases hd : collectF cm n d st with _ | res
            · exact absurd hd (ih st d h)
            · rcases res with e | s1
              · simp
              · have hle : remainingKeys cm s1 ≤ remainingKeys cm st := by
                  obtain ⟨hv1, hg1, _, _, _⟩ := collectF_shape cm n d st s1 hd
                  refine remainingKeys_mono cm st s1 (fun x hx => ?_)
                  rcases hx with hx | hx
                  · exact Or.inl (hv1 ▸ hx)
                  · exact Or.inr (hg1 x hx)
                exact ihds s1 (lt_of_le_of_lt hle h)
      intro st slug h
      rw [collectF_succ]
      by_cases h1 : slug ∈ st.visited
      · simp [h1]
      · rw [if_neg h1]
        by_cases h2 : slug ∈ st.visiting
        · simp [h2]
        · rw [if_neg h2]
          rcases hlk : lookupComp cm slug with _ | comp
          · simp
          · have hk := lookupComp_mem cm slug comp hlk
            have hlt : remainingKeys cm
                ⟨slug :: st.visiting, st.visited, st.ordered⟩ <
                  remainingKeys cm st :=
              remainingKeys_push cm st slug st.ordered hk h2 h1
            have hne := hfold comp.internal_dependencies
              ⟨slug :: st.visiting, st.visited, st.ordered⟩
              (lt_of_lt_of_le hlt (Nat.lt_succ_iff.mp h))
            rcases hdf : depsFold cm n comp.internal_dependencies
                ⟨slug :: st.visiting, st.visited, st.ordered⟩ with _ | res
            · exact absurd hdf hne
            · rcases res with e | st2 <;> simp [hdf]

/-- The fold-level consequences of `collectF_shape` for the dependency loop. -/
theorem depsFold_shape (cm : List (String × Component)) (n : Nat) :
    ∀ ds st st', depsFold cm n ds st = some (Except.ok st') →
      st'.visiting = st.visiting ∧
      (∀ x, x ∈ st.visited → x ∈ st'.visited) ∧
      (∀ x, x ∈ st'.visited → x ∈ st.visited ∨ x ∉ st.visiting) ∧
      (∀ d ∈ ds, d ∈ st'.visited ∨ d ∈ st'.visiting) := by
  intro ds
  induction ds with
  | nil =>
      intro st st' h
      rw [depsFold_nil] at h
      obtain rfl : st = st' := by simpa using h
      exact ⟨rfl, fun x hx => hx, fun x hx => Or.inl hx,
        fun d hd => absurd hd (List.not_mem_nil d)⟩
  | cons d ds ihds =>
      intro st st' h
      rw [depsFold_cons] at h
      rcases hd : collectF cm n d st with _ | res
      · rw [hd] at h; cases h
      · rcases res with e | s1
        · rw [hd] at h; cases h
        · rw [hd] at h
          obtain ⟨hv1, hg1, hn1, hs1, _⟩ := collectF_shape cm n d st s1 hd
          obtain ⟨hv2, hg2, hn2, hds2⟩ := ihds s1 st' h
          refine ⟨hv2.trans hv1, fun x hx => hg2 x (hg1 x hx), ?_, ?_⟩
          · intro x hx
            rcases hn2 x hx with hx1 | hx1
            · rcases hn1 x hx1 with hx2 | hx2
              · exact Or.inl hx2
              · exact Or.inr hx2
            · rw [hv1] at hx1
              exact Or.inr hx1
          · intro d' hd'
            rcases List.mem_cons.mp hd' with rfl | hd'
            · rcases hs1 with hs | hs
              · exact Or.inl (hg2 _ hs)
              · rw [hv2, hv1]; exact Or.inr hs
            · exact hds2 d' hd'

/-- The state invariant of the DFS: `visited` and the output list carry the
same slugs with no duplicates, every output entry is the registry entry of
its slug, nothing is simultaneously on the stack and finished, and every
dependency of a finished slug is itself finished or on the stack. -/
structure DfsInv (cm : List (String × Component)) (st : DfsState) : Prop where
  vv : ∀ x, x ∈ st.visited ↔ x ∈ st.ordered.map Prod.fst
  nd : (st.ordered.map Prod.fst).Nodup
  cmp : ∀ s c, (s, c) ∈ st.ordered → lookupComp cm s = some c
  disj : ∀ x, x ∈ st.visiting → x ∉ st.visited
  closed : ∀ s c, (s, c) ∈ st.ordered → ∀ d ∈ c.internal_dependencies,
      d ∈ st.visited ∨ d ∈ st.visiting

theorem collectF_inv (cm : List (String × Component)) :
    ∀ n slug st st', collectF cm n slug st = some (Except.ok st') →
      DfsInv cm st → DfsInv cm st' := by
  intro n
  induction n with
  | zero => intro slug st st' h; simp [collectF] at h
  | succ n ih =>
      have hfold : ∀ ds st st',
          depsFold cm n ds st = some (Except.ok st') →
          DfsInv cm st → DfsInv cm st' := by
        intro ds
        induction ds with
        | nil =>
            intro st st' h hinv
            rw [depsFold_nil] at h
            obtain rfl : st = st' := by simpa using h
            exact hinv
        | cons d ds ihds =>
            intro st st' h hinv
            rw [depsFold_cons] at h
            rcases hd : collectF cm n d st with _ | res
            · rw [hd] at h; cases h
            · rcases res with e | s1
              · rw [hd] at h; cases h
              · rw [hd] at h
                exact ihds s1 st' h (ih d st s1 hd hinv)
      intro slug st st' h hinv
      rw [collectF_succ] at h
      by_cases h1 : slug ∈ st.visited
      · rw [if_pos h1] at h
        obtain rfl : st = st' := by simpa using h
        exact hinv
      · rw [if_neg h1] at h
        by_cases h2 : slug ∈ st.visiting
        · rw [if_pos h2] at h
          obtain rfl : st = st' := by simpa using h
          exact hinv
        · rw [if_neg h2] at h
          rcases hlk : lookupComp cm slug with _ | comp
          · rw [hlk] at h; cases h
          · simp only [hlk] at h
            rcases hdf : depsFold cm n comp.internal_dependencies
                ⟨slug :: st.visiting, st.visited, st.ordered⟩ with _ | res
            · rw [hdf] at h; cases h
            · rcases res with e | st2
              · simp only [hdf] at h; cases h
              · simp only [hdf, Option.some.injEq, Except.ok.injEq] at h
                obtain rfl : (⟨st2.visiting.erase slug, slug :: st2.visited,
                    st2.ordered ++ [(slug, comp)]⟩ : DfsState) = st' := h
                have hinv1 : DfsInv cm
                    ⟨slug :: st.visiting, st.visited, st.ordered⟩ := by
                  refine ⟨hinv.vv, hinv.nd, hinv.cmp, ?_, ?_⟩
                  · intro x hx
                    rcases List.mem_cons.mp hx with rfl | hx
                    · exact h1
                    · exact hinv.disj x hx
                  · intro s c hc d hd
                    rcases hinv.closed s c hc d hd with hvd | hvg
                    · exact Or.inl hvd
                    · exact Or.inr (List.mem_cons_of_mem _ hvg)
                have hinv2 := hfold _ _ _ hdf hinv1
                obtain ⟨hv2, hg2, hn2, hds2⟩ := depsFold_shape cm n _ _ _ hdf
                simp only at hv2 hg2 hn2
                have hslugvis : slug ∈ st2.visiting := by
                  rw [hv2]; exact List.mem_cons_self _ _
                have hslugnot : slug ∉ st2.ordered.map Prod.fst :=
                  fun hc => (hinv2.disj slug hslugvis) ((hinv2.vv slug).mpr hc)
                refine ⟨?_, ?_, ?_, ?_, ?_⟩
                · intro x
                  simp only [List.map_append, List.map_cons, List.map_nil,
                    List.mem_append, List.mem_cons, List.not_mem_nil,
                    or_false]
                  constructor
                  · rintro (rfl | hx)
                    · exact Or.inr rfl
                    · exact Or.inl ((hinv2.vv x).mp hx)
                  · rintro (hx | rfl)
                    · exact Or.inr ((hinv2.vv x).mpr hx)
                    · exact Or.inl rfl
                · simp only [List.map_append, List.map_cons, List.map_nil]
                  rw [List.nodup_append]
                  refine ⟨hinv2.nd, List.nodup_singleton _, ?_⟩
                  intro x hx hxs
                  simp only [List.mem_singleton] at hxs
                  exact hslugnot (hxs ▸ hx)
                · intro s c hc
                  rcases List.mem_append.mp hc with hc | hc
                  · exact hinv2.cmp s c hc
                  · simp only [List.mem_singleton, Prod.mk.injEq] at hc
                    obtain ⟨rfl, rfl⟩ := hc
                    exact hlk
                · intro x hx
                  simp only at hx
                  have hxst : x ∈ st.visiting := by
                    rw [hv2, List.erase_cons_head] at hx
                    exact hx
                  have hxvis2 : x ∈ st2.visiting := by
                    rw [hv2]; exact List.mem_cons_of_mem _ hxst
                  have hxne : x ≠ slug := fun hc => h2 (hc ▸ hxst)
                  intro hc
                  rcases List.mem_cons.mp hc with hc' | hc'
                  · exact hxne hc'
                  · exact hinv2.disj x hxvis2 hc'
                · intro s c hc d hd
                  simp only
                  have hcase : d ∈ st2.visited ∨ d ∈ st2.visiting := by
                    rcases List.mem_append.mp hc with hc' | hc'
                    · exact hinv2.closed s c hc' d hd
                    · simp only [List.mem_singleton, Prod.mk.injEq] at hc'
                      obtain ⟨rfl, rfl⟩ := hc'
                      exact hds2 d hd
                  rcases hcase with hdv | hdv
                  · exact Or.inl (List.mem_cons_of_mem _ hdv)
                  · rw [hv2] at hdv
                    rcases List.mem_cons.mp hdv with rfl | hdv
                    · exact Or.inl (List.mem_cons_self _ _)
                    · refine Or.inr ?_
                      rw [hv2, List.erase_cons_head]
                      exact hdv

theorem depsFold_inv (cm : List (String × Component)) (n : Nat) :
    ∀ ds st st', depsFold cm n ds st = some (Except.ok st') →
      DfsInv cm st → DfsInv cm st' := by
  intro ds
  induction ds with
  | nil =>
      intro st st' h hinv
      rw [depsFold_nil] at h
      obtain rfl : st = st' := by simpa using h
      exact hinv
  | cons d ds ihds =>
      intro st st' h hinv
      rw [depsFold_cons] at h
      rcases hd : collectF cm n d st with _ | res
      · rw [hd] at h; cases h
      · rcases res with e | s1
        · rw [hd] at h; cases h
        · rw [hd] at h
          exact ihds s1 st' h (collectF_inv cm n d st s1 hd hinv)

/-- If every slug reachable from the start is present in the registry map,
the DFS never produces a `ComponentNotFound` error. -/
theorem collectF_no_error (cm : List (String × Component)) (root : String)
    (hcl : ∀ s, Reach cm root s → (lookupComp cm s).isSome) :
    ∀ n slug st e, Reach cm root slug →
      collectF cm n slug st ≠ some (Except.error e) := by
  intro n
  induction n with
  | zero => intro slug st e hr h; simp [collectF] at h
  | succ n ih =>
      have hfold : ∀ ds st e, (∀ d ∈ ds, Reach cm root d) →
          depsFold cm n ds st ≠ some (Except.error e) := by
        intro ds
        induction ds with
        | nil => intro st e hr h; rw [depsFold_nil] at h; cases h
        | cons d ds ihds =>
            intro st e hr h
            rw [depsFold_cons] at h
            rcases hd : collectF cm n d st with _ | res
            · rw [hd] at h; cases h
            · rcases res with e' | s1
              · rw [hd] at h
                exact ih d st e' (hr d (List.mem_cons_self d ds)) hd
              · rw [hd] at h
                exact ihds s1 e (fun d' hd' =>
                  hr d' (List.mem_cons_of_mem d hd')) h
      intro slug st e hr h
      rw [collectF_succ] at h
      by_cases h1 : slug ∈ st.visited
      · rw [if_pos h1] at h; cases h
      · rw [if_neg h1] at h
        by_cases h2 : slug ∈ st.visiting
        · rw [if_pos h2] at h; cases h
        · rw [if_neg h2] at h
          rcases hlk : lookupComp cm slug with _ | comp
          · have := hcl slug hr
            rw [hlk] at this
            cases this
          · simp only [hlk] at h
            rcases hdf : depsFold cm n comp.internal_dependencies
                ⟨slug :: st.visiting, st.visited, st.ordered⟩ with _ | res
            · rw [hdf] at h; cases h
            · rcases res with e' | st2
              · exact hfold comp.internal_dependencies _ e'
                  (fun d hd => hr.tail ⟨comp, hlk, hd⟩) hdf
              · simp only [hdf] at h; cases h

/-- Topological sortedness of the output: every internal dependency of an
entry occurs strictly earlier in the list. -/
def TopoSorted (l : List (String × Component)) : Prop :=
  ∀ p s c q, l = p ++ (s, c) :: q →
    ∀ d ∈ c.internal_dependencies, d ∈ p.map Prod.fst

theorem append_singleton_split {α : Type} {l p q : List α} {x y : α}
    (h : l ++ [x] = p ++ y :: q) :
    (p = l ∧ y = x ∧ q = []) ∨ ∃ q0, l = p ++ y :: q0 ∧ q = q0 ++ [x] := by
  rcases List.eq_nil_or_concat q with rfl | ⟨q0, x', rfl⟩
  · obtain ⟨h1, h2⟩ := List.append_inj' h (by simp)
    exact Or.inl ⟨h1.symm, by simpa using h2.symm, rfl⟩
  · have h' : l ++ [x] = (p ++ y :: q0) ++ [x'] := by simpa using h
    obtain ⟨h1, h2⟩ := List.append_inj' h' (by simp)
    simp only [List.cons.injEq, and_true] at h2
    exact Or.inr ⟨q0, by simpa using h1, by simp [h2]⟩

/-- In an acyclic registry the DFS keeps its output topologically sorted:
whenever a slug is appended, all of its dependencies are already in the
output (a dependency still on the stack would close a cycle). -/
theorem collectF_topo (cm : List (String × Component))
    (hacyc : ∀ s, ¬ Relation.TransGen (step cm) s s) :
    ∀ n slug st st', collectF cm n slug st = some (Except.ok st') →
      (∀ v ∈ st.visiting, Relation.TransGen (step cm) v slug) →
      DfsInv cm st → TopoSorted st.ordered → TopoSorted st'.ordered := by
  intro n
  induction n with
  | zero => intro slug st st' h; simp [collectF] at h
  | succ n ih =>
      have hfold : ∀ ds st st',
          depsFold cm n ds st = some (Except.ok st') →
          (∀ d ∈ ds, ∀ v ∈ st.visiting, Relation.TransGen (step cm) v d) →
          DfsInv cm st → TopoSorted st.ordered → TopoSorted st'.ordered := by
        intro ds
        induction ds with
        | nil =>
            intro st st' h hvis hinv htopo
            rw [depsFold_nil] at h
            obtain rfl : st = st' := by simpa using h
            exact htopo
        | cons d ds ihds =>
            intro st st' h hvis hinv htopo
            rw [depsFold_cons] at h
            rcases hd : collectF cm n d st with _ | res
            · rw [hd] at h; cases h
            · rcases res with e | s1
              · rw [hd] at h; cases h
              · rw [hd] at h
                obtain ⟨hv1, _, _, _, _⟩ := collectF_shape cm n d st s1 hd
                refine ihds s1 st' h ?_ (collectF_inv cm n d st s1 hd hinv)
                  (ih d st s1 hd (hvis d (List.mem_cons_self d ds)) hinv htopo)
                intro d' hd' v hv
                rw [hv1] at hv
                exact hvis d' (List.mem_cons_of_mem d hd') v hv
      intro slug st st' h hvis hinv htopo
      rw [collectF_succ] at h
      by_cases h1 : slug ∈ st.visited
      · rw [if_pos h1] at h
        obtain rfl : st = st' := by simpa using h
        exact htopo
      · rw [if_neg h1] at h
        by_cases h2 : slug ∈ st.visiting
        · rw [if_pos h2] at h
          obtain rfl : st = st' := by simpa using h
          exact htopo
        · rw [if_neg h2] at h
          rcases hlk : lookupComp cm slug with _ | comp
          · rw [hlk] at h; cases h
          · simp only [hlk] at h
            rcases hdf : depsFold cm n comp.internal_dependencies
                ⟨slug :: st.visiting, st.visited, st.ordered⟩ with _ | res
            · rw [hdf] at h; cases h
            · rcases res with e | st2
              · simp only [hdf] at h; cases h
              · simp only [hdf, Option.some.injEq, Except.ok.injEq] at h
                obtain rfl : (⟨st2.visiting.erase slug, slug :: st2.visited,
                    st2.ordered ++ [(slug, comp)]⟩ : DfsState) = st' := h
                have hinv1 : DfsInv cm
                    ⟨slug :: st.visiting, st.visited, st.ordered⟩ := by
                  refine ⟨hinv.vv, hinv.nd, hinv.cmp, ?_, ?_⟩
                  · intro x hx
                    rcases List.mem_cons.mp hx with rfl | hx
                    · exact h1
                    · exact hinv.disj x hx
                  · intro s c hc d hd
                    rcases hinv.closed s c hc d hd with hvd | hvg
                    · exact Or.inl hvd
                    · exact Or.inr (List.mem_cons_of_mem _ hvg)
                have hvis1 : ∀ d ∈ comp.internal_dependencies,
                    ∀ v ∈ (⟨slug :: st.visiting, st.visited,
                      st.ordered⟩ : DfsState).visiting,
                      Relation.TransGen (step cm) v d := by
                  intro d hd v hv
                  simp only [List.mem_cons] at hv
                  rcases hv with rfl | hv
                  · exact Relation.TransGen.single ⟨comp, hlk, hd⟩
                  · exact (hvis v hv).trans
                      (Relation.TransGen.single ⟨comp, hlk, hd⟩)
                have htopo2 := hfold _ _ _ hdf hvis1 hinv1 htopo
                have hinvst2 := depsFold_inv cm n _ _ _ hdf hinv1
                obtain ⟨hv2, _, _, hds2⟩ := depsFold_shape cm n _ _ _ hdf
                simp only at hv2 hds2
                intro p s c q hsplit d hd
                simp only at hsplit
                rcases append_singleton_split hsplit with
                    ⟨rfl, hyx, rfl⟩ | ⟨q0, hl, rfl⟩
                · simp only [Prod.mk.injEq] at hyx
                  rw [hyx.2] at hd
                  rcases hds2 d hd with hdv | hdv
                  · exact (hinvst2.vv d).mp hdv
                  · rw [hv2] at hdv
                    rcases List.mem_cons.mp hdv with hde | hdv
                    · subst hde
                      exact absurd (Relation.TransGen.single ⟨comp, hlk, hd⟩)
                        (hacyc _)
                    · exact absurd ((hvis d hdv).trans
                        (Relation.TransGen.single ⟨comp, hlk, hd⟩))
                        (hacyc d)
                · exact htopo2 p s c q0 hl d hd

/-- Once the DFS stack is empty, the visited set is closed under
reachability. -/
theorem visited_reach_closed (cm : List (String × Component)) (st : DfsState)
    (hinv : DfsInv cm st) (hvempty : st.visiting = []) :
    ∀ x y, x ∈ st.visited → Reach cm x y → y ∈ st.visited := by
  intro x y hx hr
  induction hr with
  | refl => exact hx
  | tail hab hbc ih =>
      rcases hbc with ⟨comp, hlk, hd⟩
      obtain ⟨entry, hentry, hfst⟩ := List.mem_map.mp ((hinv.vv _).mp ih)
      have hentry' : (entry.1, entry.2) ∈ st.ordered := by
        simpa using hentry
      have hcmp := hinv.cmp entry.1 entry.2 hentry'
      rw [hfst, hlk] at hcmp
      have hce : comp = entry.2 := by simpa using hcmp
      rw [hce] at hd
      rcases hinv.closed entry.1 entry.2 hentry' _ hd with hv | hv
      · exact hv
      · rw [hvempty] at hv
        cases hv

theorem dfsInv_init (cm : List (String × Component)) :
    DfsInv cm ⟨[], [], []⟩ := by
  refine ⟨by simp, by simp, ?_, ?_, ?_⟩
  · intro s c hc; simp at hc
  · intro x hx; simp at hx
  · intro s c hc; simp at hc

theorem remainingKeys_init_lt (cm : List (String × Component)) :
    remainingKeys cm (⟨[], [], []⟩ : DfsState) < cm.length + 1 := by
  have h1 := List.length_filter_le
    (fun k => decide (k ∉ ([] : List String) ∧ k ∉ ([] : List String)))
    (cm.map Prod.fst)
  simp only [List.length_map] at h1
  unfold remainingKeys
  dsimp only
  omega

/-- C2. For every registry component map whose internal-dependency relation is
acyclic and in which every slug reachable from the request is present,
`fetch_component_with_dependencies` succeeds and returns a list containing the
requested component and each transitive internal dependency exactly once
(membership is exactly reachability and the slug list has no duplicates), each
entry paired with its registry component, in which every dependency slug
appears strictly before any slug that declares it as a dependency (the
post-order of the depth-first traversal). -/
theorem fetch_with_dependencies_topological_order
    (cm : List (String × Component)) (slug : String)
    (hacyc : ∀ s, ¬ Relation.TransGen (step cm) s s)
    (hclosed : ∀ s, Reach cm slug s → (lookupComp cm s).isSome) :
    ∃ l, fetch_component_with_dependencies cm slug = some (Except.ok l) ∧
      (∀ x, x ∈ l.map Prod.fst ↔ Reach cm slug x) ∧
      (l.map Prod.fst).Nodup ∧
      (∀ s c, (s, c) ∈ l → lookupComp cm s = some c) ∧
      TopoSorted l := by
  have hne := collectF_no_fuel_exhaustion cm (cm.length + 1)
    ⟨[], [], []⟩ slug (remainingKeys_init_lt cm)
  rcases hres : collectF cm (cm.length + 1) slug ⟨[], [], []⟩ with _ | res
  · exact absurd hres hne
  · rcases res with e | st'
    · exact absurd hres
        (collectF_no_error cm slug hclosed (cm.length + 1) slug
          ⟨[], [], []⟩ e Relation.ReflTransGen.refl)
    · have hinv' := collectF_inv cm (cm.length + 1) slug ⟨[], [], []⟩ st'
        hres (dfsInv_init cm)
      obtain ⟨hv', hg', hn', hs', hr'⟩ :=
        collectF_shape cm (cm.length + 1) slug ⟨[], [], []⟩ st' hres
      simp only at hv' hs' hr'
      have hslug : slug ∈ st'.visited := by
        rcases hs' with h | h
        · exact h
        · simp at h
      refine ⟨st'.ordered, ?_, ?_, hinv'.nd, ?_, ?_⟩
      · simp [fetch_component_with_dependencies, hres]
      · intro x
        constructor
        · intro hx
          rcases hr' x ((hinv'.vv x).mpr hx) with h | h
          · simp at h
          · exact h
        · intro hx
          exact (hinv'.vv x).mp
            (visited_reach_closed cm st' hinv' hv' slug x hslug hx)
      · exact hinv'.cmp
      · refine collectF_topo cm hacyc (cm.length + 1) slug ⟨[], [], []⟩ st'
          hres ?_ (dfsInv_init cm) ?_
        · intro v hv
          simp at hv
        · intro p s c q habs d hd
          exact absurd habs.symm (by simp)

/-- C7. For every registry component map containing a dependency cycle
reachable from the requested slug (witnessed by two mutually dependent slugs
`a` and `b`), `fetch_component_with_dependencies` terminates — the fuel bound
is never hit, the back edge re-encountered on the DFS stack being skipped —
and on success its list contains each component of the cycle exactly once with
no duplicate entries; requesting a slug absent from the component map instead
yields a hard `ComponentNotFound` error carrying that slug. -/
theorem fetch_with_dependencies_cycle_tolerant
    (cm : List (String × Component)) (slug a b : String)
    (hab : step cm a b) (hba : step cm b a) (hra : Reach cm slug a) :
    (fetch_component_with_dependencies cm slug).isSome ∧
    (∀ l, fetch_component_with_dependencies cm slug = some (Except.ok l) →
      (l.map Prod.fst).Nodup ∧
      (l.map Prod.fst).count a = 1 ∧ (l.map Prod.fst).count b = 1) ∧
    (∀ s, lookupComp cm s = none →
      fetch_component_with_dependencies cm s = some (Except.error s)) := by
  have hne := collectF_no_fuel_exhaustion cm (cm.length + 1)
    ⟨[], [], []⟩ slug (remainingKeys_init_lt cm)
  refine ⟨?_, ?_, ?_⟩
  · rcases hres : collectF cm (cm.length + 1) slug ⟨[], [], []⟩ with _ | res
    · exact absurd hres hne
    · rcases res with e | st' <;>
        simp [fetch_component_with_dependencies, hres]
  · intro l hl
    rcases hres : collectF cm (cm.length + 1) slug ⟨[], [], []⟩ with _ | res
    · exact absurd hres hne
    · rcases res with e | st'
      · rw [fetch_component_with_dependencies, hres] at hl
        cases hl
      · rw [fetch_component_with_dependencies, hres] at hl
        obtain rfl : st'.ordered = l := by simpa using hl
        have hinv' := collectF_inv cm (cm.length + 1) slug ⟨[], [], []⟩ st'
          hres (dfsInv_init cm)
        obtain ⟨hv', hg', hn', hs', hr'⟩ :=
          collectF_shape cm (cm.length + 1) slug ⟨[], [], []⟩ st' hres
        simp only at hv' hs' hr'
        have hslug : slug ∈ st'.visited := by
          rcases hs' with h | h
          · exact h
          · simp at h
        have hmem : ∀ x, Reach cm slug x → x ∈ st'.ordered.map Prod.fst :=
          fun x hx => (hinv'.vv x).mp
            (visited_reach_closed cm st' hinv' hv' slug x hslug hx)
        refine ⟨hinv'.nd, ?_, ?_⟩
        · exact List.count_eq_one_of_mem hinv'.nd (hmem a hra)
        · exact List.count_eq_one_of_mem hinv'.nd
            (hmem b (hra.tail hab))
  · intro s hs
    rw [fetch_component_with_dependencies]
    rw [show cm.length + 1 = Nat.succ cm.length from rfl]
    rw [collectF_succ]
    simp [hs]

theorem lookupComp_mem_entry {cm : List (String × Component)} {x : String}
    {c : Component} (h : lookupComp cm x = some c) : (x, c) ∈ cm := by
  unfold lookupComp at h
  rcases hf : cm.find? (fun entry => entry.1 = x) with _ | entry
  · rw [hf] at h; cases h
  · rw [hf] at h
    have hmem := List.mem_of_find?_eq_some hf
    have hpred := List.find?_some hf
    simp only [decide_eq_true_eq] at hpred
    have hc : entry.2 = c := by simpa using h
    have hentry : entry = (x, c) := by
      cases entry
      simp_all
    rwa [hentry] at hmem

/-- A rank function decreasing along every edge certifies acyclicity. -/
theorem acyclic_of_rank {cm : List (String × Component)}
    (rank : String → Nat) (h : ∀ x y, step cm x y → rank y < rank x) :
    ∀ s, ¬ Relation.TransGen (step cm) s s := by
  have hlt : ∀ x y, Relation.TransGen (step cm) x y → rank y < rank x := by
    intro x y hxy
    induction hxy with
    | single h1 => exact h _ _ h1
    | tail _ h2 ih => exact lt_trans (h _ _ h2) ih
  intro s hs
  exact lt_irrefl _ (hlt s s hs)

/-- Reachability stays inside any step-closed set containing the root. -/
theorem reach_in_closed_set {cm : List (String × Component)}
    (S : String → Prop) (root : String) (hroot : S root)
    (hstep : ∀ x y, S x → step cm x y → S y) :
    ∀ x, Reach cm root x → S x := by
  intro x hx
  induction hx with
  | refl => exact hroot
  | tail _ h2 ih => exact hstep _ _ ih h2

theorem fetch_with_dependencies_topological_order_witness :
    ∃ l, fetch_component_with_dependencies
        [("button", (⟨["icon"], []⟩ : Component)), ("icon", ⟨[], []⟩)] "button" =
          some (Except.ok l) ∧
      (∀ x, x ∈ l.map Prod.fst ↔
        Reach [("button", (⟨["icon"], []⟩ : Component)), ("icon", ⟨[], []⟩)]
          "button" x) ∧
      (l.map Prod.fst).Nodup ∧
      (∀ s c, (s, c) ∈ l →
        lookupComp [("button", (⟨["icon"], []⟩ : Component)), ("icon", ⟨[], []⟩)] s =
          some c) ∧
      TopoSorted l := by
  refine fetch_with_dependencies_topological_order _ "button" ?_ ?_
  · refine acyclic_of_rank (fun s => if s = "button" then 1 else 0) ?_
    intro x y hxy
    rcases hxy with ⟨c, hc, hy⟩
    have hmem := lookupComp_mem_entry hc
    simp only [List.mem_cons, List.not_mem_nil, or_false,
      Prod.mk.injEq] at hmem
    rcases hmem with ⟨rfl, rfl⟩ | ⟨rfl, rfl⟩
    · simp only [List.mem_singleton] at hy
      subst hy
      decide
    · simp at hy
  · intro s hs
    have hS : s = "button" ∨ s = "icon" := by
      refine reach_in_closed_set (fun z => z = "button" ∨ z = "icon")
        "button" (Or.inl rfl) ?_ s hs
      intro x y _ hxy
      rcases hxy with ⟨c, hc, hy⟩
      have hmem := lookupComp_mem_entry hc
      simp only [List.mem_cons, List.not_mem_nil, or_false,
        Prod.mk.injEq] at hmem
      rcases hmem with ⟨rfl, rfl⟩ | ⟨rfl, rfl⟩
      · simp only [List.mem_singleton] at hy
        exact Or.inr hy
      · simp at hy
    rcases hS with rfl | rfl <;> decide

theorem fetch_with_dependencies_cycle_tolerant_witness :
    (fetch_component_with_dependencies
        [("a", (⟨["b"], []⟩ : Component)), ("b", ⟨["a"], []⟩)] "a").isSome ∧
    (∀ l, fetch_component_with_dependencies
        [("a", (⟨["b"], []⟩ : Component)), ("b", ⟨["a"], []⟩)] "a" =
          some (Except.ok l) →
      (l.map Prod.fst).Nodup ∧
      (l.map Prod.fst).count "a" = 1 ∧ (l.map Prod.fst).count "b" = 1) ∧
    (∀ s, lookupComp [("a", (⟨["b"], []⟩ : Component)), ("b", ⟨["a"], []⟩)] s =
        none →
      fetch_component_with_dependencies
        [("a", (⟨["b"], []⟩ : Component)), ("b", ⟨["a"], []⟩)] s =
          some (Except.error s)) :=
  fetch_with_dependencies_cycle_tolerant _ "a" "a" "b"
    ⟨⟨["b"], []⟩, by decide, by decide⟩ ⟨⟨["a"], []⟩, by decide, by decide⟩
    Relation.ReflTransGen.refl

/-!
## Dependency Reconciliation (`deps.rs`)

`check_project_requirements` and its helpers from
`src/crates/core/src/deps.rs`.  The external `semver` crate
(`Version::parse`, `VersionReq::parse`, `VersionReq::matches`) is abstracted
as a `SemverOracle` (a parsed version is carried as its canonical rendering);
the filesystem probes (`declared_dependencies`, the upward `node_modules`
search, `read_installed_version`, `detect_yarn_pnp`) are abstracted as a
`DepsEnv` recording their outcomes.  All string processing done by `deps.rs`
itself (`normalize_version_str`, `extract_major`,
`extract_version_from_spec`) is embedded directly. -/

/-- Abstraction of the external `semver` crate: `parse` models
`Version::parse` (returning the canonical rendering of the parsed version),
`req_parses` models `VersionReq::parse(...).is_ok()`, and `req_matches range
version` models the parsed requirement's `matches` on a parsed version. -/
structure SemverOracle where
  parse : String → Option String
  req_parses : String → Bool
  req_matches : String → String → Bool

/-- Outcomes of the filesystem probes consumed by
`check_project_requirements` at a fixed base directory: `declared` is the
`package.json` dependency/devDependency map, `module_present name` is
`node_module_package_json_path(base, name).is_some()`, `installed name` is
`read_installed_version(base, name)`, and `yarn_pnp` is
`detect_yarn_pnp(base)` (`.pnp.*` marker files or a `nodeLinker: pnp` setting
found walking upward from the base directory). -/
structure DepsEnv where
  declared : List (String × String)
  module_present : String → Bool
  installed : String → Option String
  yarn_pnp : Bool

inductive RequirementIssueReason where
  | Missing
  | Outdated
  | Unknown
  deriving DecidableEq

structure RequirementIssue where
  name : String
  required : String
  installed : Option String
  declared : Option String
  reason : RequirementIssueReason
  deriving DecidableEq

def lookupAssoc (l : List (String × String)) (key : String) : Option String :=
  (l.find? (fun entry => entry.1 = key)).map (fun entry => entry.2)

/-- `normalize_version_str`: strip every leading `v`. -/
def normalize_version_str (version : String) : String :=
  String.mk (version.toList.dropWhile (fun c => c = 'v'))

/-- `parse_version`: normalize, then `Version::parse`. -/
def parse_version (o : SemverOracle) (version : String) : Option String :=
  o.parse (normalize_version_str version)

/-- `parse_version_req(range).is_some()`. -/
def parse_version_req (o : SemverOracle) (range : String) : Bool :=
  o.req_parses range

/-- `extract_major`: the first maximal ASCII-digit run of the normalized
version string, parsed as a `u64` (`none` when there is no digit or the run
overflows 64 bits). -/
def extract_major (version : String) : Option Nat :=
  let digits := ((normalize_version_str version).toList.dropWhile
    (fun c => ¬ c.isDigit)).takeWhile (fun c => c.isDigit)
  if digits.isEmpty then none
  else
    let value := digits.foldl (fun acc c => 10 * acc + (c.toNat - 48)) 0
    if value < 2 ^ 64 then some value else none

/-- `extract_version_from_spec`: from the first digit take digits, `.`, `-`,
`+`, and try `Version::parse` on that slice. -/
def extract_version_from_spec (o : SemverOracle) (spec : String) :
    Option String :=
  match spec.toList.dropWhile (fun c => ¬ c.isDigit) with
  | [] => none
  | rest =>
    o.parse (String.mk (rest.takeWhile
      (fun c => c.isDigit ∨ c = '.' ∨ c = '-' ∨ c = '+')))

/-- `yarn_declared_satisfies` (deps.rs lines 494-512): the symmetric check —
a version extracted from the declared spec matches the required range, or a
version extracted from the required range matches the declared range. -/
def yarn_declared_satisfies (o : SemverOracle)
    (required_range declared_spec : String) : Bool :=
  (match extract_version_from_spec o declared_spec with
   | some declared_version =>
     parse_version_req o required_range &&
       o.req_matches required_range declared_version
   | none => false) ||
  (match extract_version_from_spec o required_range with
   | some required_version =>
     parse_version_req o declared_spec &&
       o.req_matches declared_spec required_version
   | none => false)

/-- The `higher_version_satisfied` test of `check_project_requirements`
(deps.rs lines 416-422): both majors extractable and the installed one
strictly greater. -/
def higher_version_satisfied (installed_spec required_range : String) : Bool :=
  match extract_major installed_spec, extract_major required_range with
  | some installed, some required => decide (required < installed)
  | _, _ => false

/-- `installed_version.or_else(|| declared.get(name))`: prefer the version
read from the installed package metadata, falling back to the declared
`package.json` spec. -/
def resolve_installed_spec (env : DepsEnv) (name : String) : Option String :=
  match env.installed name with
  | some v => some v
  | none => lookupAssoc env.declared name

def resolved_version_of (o : SemverOracle) (env : DepsEnv) (name : String) :
    Option String :=
  (resolve_installed_spec env name).bind (parse_version o)

def range_satisfied_check (o : SemverOracle) (required_range : String)
    (resolved_version : Option String) : Bool :=
  match resolved_version with
  | some v => parse_version_req o required_range &&
      o.req_matches required_range v
  | none => false

def higher_ok (env : DepsEnv) (name required_range : String) : Bool :=
  match resolve_installed_spec env name with
  | some spec => higher_version_satisfied spec required_range
  | none => false

/-- The Yarn-PnP escape hatch of `check_project_requirements` (deps.rs lines
380-387): PnP detected and the declared spec passes the symmetric check. -/
def yarn_pnp_exempt (o : SemverOracle) (env : DepsEnv)
    (name required_range : String) : Bool :=
  env.yarn_pnp &&
    (match lookupAssoc env.declared name with
     | some declared_spec =>
         yarn_declared_satisfies o required_range declared_spec
     | none => false)

def declared_string_of (o : SemverOracle) (env : DepsEnv) (name : String) :
    Option String :=
  match resolved_version_of o env name, resolve_installed_spec env name with
  | some resolved, some spec => if resolved = spec then none else some spec
  | _, some spec => some spec
  | _, _ => none

/-- The loop body of `check_project_requirements` (deps.rs lines 377-448) for
one `(name, required_range)` pair: `some` is a pushed `RequirementIssue`,
`none` means the dependency was classified satisfied (or PnP-exempt). -/
def check_one (o : SemverOracle) (env : DepsEnv)
    (name required_range : String) : Option RequirementIssue :=
  if env.module_present name = false then
    if yarn_pnp_exempt o env name required_range then none
    else
      some ⟨name, required_range, none, lookupAssoc env.declared name,
        if (lookupAssoc env.declared name).isSome then
          RequirementIssueReason.Outdated
        else RequirementIssueReason.Missing⟩
  else
    if range_satisfied_check o required_range (resolved_version_of o env name)
        || higher_ok env name required_range then none
    else
      some ⟨name, required_range, resolved_version_of o env name,
        declared_string_of o env name,
        if (resolved_version_of o env name).isSome then
          RequirementIssueReason.Outdated
        else RequirementIssueReason.Unknown⟩

/-- `check_project_requirements` (deps.rs lines 369-451) over an enumeration
of the requirements map. -/
def check_project_requirements (o : SemverOracle) (env : DepsEnv)
    (requirements : List (String × String)) : List RequirementIssue :=
  requirements.foldr
    (fun entry issues =>
      match check_one o env entry.1 entry.2 with
      | some issue => issue :: issues
      | none => issues)
    []

theorem check_project_requirements_cons (o : SemverOracle) (env : DepsEnv)
    (entry : String × String) (rest : List (String × String)) :
    check_project_requirements o env (entry :: rest) =
      match check_one o env entry.1 entry.2 with
      | some issue => issue :: check_project_requirements o env rest
      | none => check_project_requirements o env rest := rfl

theorem check_one_name (o : SemverOracle) (env : DepsEnv)
    (name required_range : String) (issue : RequirementIssue)
    (h : check_one o env name required_range = some issue) :
    issue.name = name := by
  unfold check_one at h
  split at h
  · split at h
    · cases h
    · cases Option.some.inj h
      rfl
  · split at h
    · cases h
    · cases Option.some.inj h
      rfl

theorem check_issue_names (o : SemverOracle) (env : DepsEnv) :
    ∀ reqs issue, issue ∈ check_project_requirements o env reqs →
      issue.name ∈ reqs.map Prod.fst := by
  intro reqs
  induction reqs with
  | nil => intro issue hi; simp [check_project_requirements] at hi
  | cons e rest ih =>
      intro issue hi
      rw [check_project_requirements_cons] at hi
      rcases ho : check_one o env e.1 e.2 with _ | pushed
      · rw [ho] at hi
        exact List.mem_cons_of_mem _ (ih issue hi)
      · rw [ho] at hi
        rcases List.mem_cons.mp hi with rfl | hi
        · rw [List.map_cons]
          exact (check_one_name o env e.1 e.2 issue ho) ▸
            List.mem_cons_self _ _
        · exact List.mem_cons_of_mem _ (ih issue hi)

/-- C4. In `check_project_requirements`, whenever the installed (or
declared-fallback) version and the required range both yield an extractable
major component and the installed major is strictly greater than the required
major, the dependency is classified satisfied — no `RequirementIssue` with
its name is emitted — regardless of whether the version matches the range
(the semver oracle is universally quantified); the boundary is strict
greater-than, so an equal major never satisfies by this rule; in particular,
required `^1.0.0` with installed `2.3.0` has majors `1` and `2`, so it falls
under the satisfied case. -/
theorem check_requirements_major_greater_satisfied :
    (∀ (o : SemverOracle) (env : DepsEnv) (reqs : List (String × String))
      (name range spec : String) (im rm : Nat),
      (name, range) ∈ reqs → (reqs.map Prod.fst).Nodup →
      env.module_present name = true →
      resolve_installed_spec env name = some spec →
      extract_major spec = some im → extract_major range = some rm →
      rm < im →
      ∀ issue ∈ check_project_requirements o env reqs, issue.name ≠ name) ∧
    (∀ spec range : String, ∀ m : Nat,
      extract_major spec = some m → extract_major range = some m →
      higher_version_satisfied spec range = false) ∧
    (extract_major "2.3.0" = some 2 ∧ extract_major "^1.0.0" = some 1) := by
  refine ⟨?_, ?_, by decide, by decide⟩
  · intro o env reqs name range spec im rm hmem hnd hmod hspec him hrm hlt
    induction reqs with
    | nil => intro issue hi; simp [check_project_requirements] at hi
    | cons e rest ih =>
        have hnd' : ((e :: rest).map Prod.fst).Nodup := hnd
        rw [List.map_cons, List.nodup_cons] at hnd'
        rcases List.mem_cons.mp hmem with heq | hmem'
        · have hone : check_one o env name range = none := by
            unfold check_one
            rw [if_neg (by simp [hmod])]
            rw [if_pos]
            have hh : higher_ok env name range = true := by
              simp only [higher_ok, hspec, higher_version_satisfied, him, hrm,
                decide_eq_true_eq]
              exact hlt
            rw [hh, Bool.or_true]
          intro issue hi
          rw [check_project_requirements_cons] at hi
          obtain ⟨rfl, rfl⟩ : e.1 = name ∧ e.2 = range := by
            rw [← heq]
            exact ⟨rfl, rfl⟩
          rw [hone] at hi
          intro hcontra
          exact hnd'.1 (hcontra ▸ check_issue_names o env rest issue hi)
        · intro issue hi
          rw [check_project_requirements_cons] at hi
          rcases ho : check_one o env e.1 e.2 with _ | pushed
          · rw [ho] at hi
            exact ih hmem' hnd'.2 issue hi
          · rw [ho] at hi
            rcases List.mem_cons.mp hi with rfl | hi
            · rw [check_one_name o env e.1 e.2 issue ho]
              intro hcontra
              exact hnd'.1 (hcontra ▸
                List.mem_map.mpr ⟨(name, range), hmem', rfl⟩)
            · exact ih hmem' hnd'.2 issue hi
  · intro spec range m hspec hrange
    unfold higher_version_satisfied
    rw [hspec, hrange]
    simp

theorem check_requirements_major_greater_satisfied_witness :
    ∀ issue ∈ check_project_requirements
      ⟨fun _ => none, fun _ => false, fun _ _ => false⟩
      ⟨[], fun _ => true, fun _ => some "2.3.0", false⟩
      [("dep", "^1.0.0")], issue.name ≠ "dep" :=
  check_requirements_major_greater_satisfied.1
    ⟨fun _ => none, fun _ => false, fun _ _ => false⟩
    ⟨[], fun _ => true, fun _ => some "2.3.0", false⟩
    [("dep", "^1.0.0")] "dep" "^1.0.0" "2.3.0" 2 1
    (List.mem_cons_self _ _) (by simp) rfl rfl (by decide) (by decide)
    (by decide)

/-- C6. When Yarn PnP mode is detected and a required dependency has no
`package.json` under any `node_modules` directory, `check_project_requirements`
reports no issue for that dependency provided the declared `package.json` spec
passes the symmetric check (a version extracted from the declared spec matches
the required range, or a version extracted from the required range matches the
declared range — the second conjunct makes the embedded
`yarn_declared_satisfies` coincide with exactly that disjunction). -/
theorem check_requirements_yarn_pnp_declared_satisfied :
    (∀ (o : SemverOracle) (env : DepsEnv) (reqs : List (String × String))
      (name range spec : String),
      (name, range) ∈ reqs → (reqs.map Prod.fst).Nodup →
      env.module_present name = false →
      env.yarn_pnp = true →
      lookupAssoc env.declared name = some spec →
      yarn_declared_satisfies o range spec = true →
      ∀ issue ∈ check_project_requirements o env reqs, issue.name ≠ name) ∧
    (∀ (o : SemverOracle) (required_range declared_spec : String),
      yarn_declared_satisfies o required_range declared_spec = true ↔
        ((∃ v, extract_version_from_spec o declared_spec = some v ∧
          parse_version_req o required_range = true ∧
          o.req_matches required_range v = true) ∨
         (∃ v, extract_version_from_spec o required_range = some v ∧
          parse_version_req o declared_spec = true ∧
          o.req_matches declared_spec v = true))) := by
  constructor
  · intro o env reqs name range spec hmem hnd hmod hpnp hdecl hyds
    induction reqs with
    | nil => intro issue hi; simp [check_project_requirements] at hi
    | cons e rest ih =>
        have hnd' : ((e :: rest).map Prod.fst).Nodup := hnd
        rw [List.map_cons, List.nodup_cons] at hnd'
        rcases List.mem_cons.mp hmem with heq | hmem'
        · have hone : check_one o env name range = none := by
            unfold check_one
            rw [if_pos (by simp [hmod])]
            have hex : yarn_pnp_exempt o env name range = true := by
              simp only [yarn_pnp_exempt, hpnp, hdecl, hyds, Bool.true_and]
            rw [if_pos hex]
          intro issue hi
          rw [check_project_requirements_cons] at hi
          obtain ⟨rfl, rfl⟩ : e.1 = name ∧ e.2 = range := by
            rw [← heq]
            exact ⟨rfl, rfl⟩
          rw [hone] at hi
          intro hcontra
          exact hnd'.1 (hcontra ▸ check_issue_names o env rest issue hi)
        · intro issue hi
          rw [check_project_requirements_cons] at hi
          rcases ho : check_one o env e.1 e.2 with _ | pushed
          · rw [ho] at hi
            exact ih hmem' hnd'.2 issue hi
          · rw [ho] at hi
            rcases List.mem_cons.mp hi with rfl | hi
            · rw [check_one_name o env e.1 e.2 issue ho]
              intro hcontra
              exact hnd'.1 (hcontra ▸
                List.mem_map.mpr ⟨(name, range), hmem', rfl⟩)
            · exact ih hmem' hnd'.2 issue hi
  · intro o required_range declared_spec
    unfold yarn_declared_satisfies
    rcases h1 : extract_version_from_spec o declared_spec with _ | v1 <;>
      rcases h2 : extract_version_from_spec o required_range with _ | v2 <;>
        simp [parse_version_req]

theorem check_requirements_yarn_pnp_declared_satisfied_witness :
    ∀ issue ∈ check_project_requirements
      ⟨fun s => some s, fun _ => true, fun _ _ => true⟩
      ⟨[("dep", "^2.0.0")], fun _ => false, fun _ => none, true⟩
      [("dep", "^2.0.0")], issue.name ≠ "dep" :=
  check_requirements_yarn_pnp_declared_satisfied.1
    ⟨fun s => some s, fun _ => true, fun _ _ => true⟩
    ⟨[("dep", "^2.0.0")], fun _ => false, fun _ => none, true⟩
    [("dep", "^2.0.0")] "dep" "^2.0.0" "^2.0.0"
    (List.mem_cons_self _ _) (by simp) rfl rfl (by decide) (by decide)

/-!
## Registry Cache (`cache.rs` and `registry.rs::fetch_with_cache`)

One cache entry (a fixed `(base URL namespace, cache key)` pair) is modelled
as its contents together with the elapsed seconds since its modification
time, plus the `.meta` validator sidecar (carried in parsed form: the
`serde_json` round-trip of `HttpCacheMetadata` is abstracted away).  The HTTP
client is modelled by the response value the single conditional GET would
produce; the `FetchOutcome` records whether a request was issued and which
validator headers it carried. -/

structure HttpCacheMetadata where
  etag : Option String
  last_modified : Option String
  deriving DecidableEq

structure CacheStore where
  entry : Option (String × Nat)
  meta : Option HttpCacheMetadata
  deriving DecidableEq

/-- `MAX_CACHE_AGE_SECS` from `cache.rs` line 12: thirty days. -/
def MAX_CACHE_AGE_SECS : Nat := 30 * 24 * 60 * 60

/-- `purge_entry` (cache.rs lines 144-147): remove the entry file and its
metadata sidecar. -/
def purge_entry (_ : CacheStore) : CacheStore := ⟨none, none⟩

/-- `read_cache_text` (cache.rs lines 64-94): absent file reads as `None`;
an entry older than `MAX_CACHE_AGE_SECS` is purged (with its sidecar) and
reads as `None` even when `accept_stale` is set; otherwise a TTL check
applies only when `accept_stale` is false. -/
def read_cache_text (s : CacheStore) (ttl : Option Nat)
    (accept_stale : Bool) : CacheStore × Option String :=
  match s.entry with
  | none => (s, none)
  | some (text, elapsed) =>
    if MAX_CACHE_AGE_SECS < elapsed then (purge_entry s, none)
    else if !accept_stale &&
        (match ttl with
         | some t => decide (t < elapsed)
         | none => false) then (s, none)
    else (s, some text)

/-- `write_cache_text` (cache.rs lines 96-107): atomically replace the entry
contents; the new file's modification time is now. -/
def write_cache_text (s : CacheStore) (contents : String) : CacheStore :=
  ⟨some (contents, 0), s.meta⟩

def remove_cache_metadata (s : CacheStore) : CacheStore :=
  ⟨s.entry, none⟩

def write_cache_metadata (s : CacheStore) (m : HttpCacheMetadata) :
    CacheStore :=
  ⟨s.entry, some m⟩

/-- `RegistryClient::store_cache_metadata` (registry.rs lines 188-197):
remove the sidecar when there are no validators, otherwise replace it. -/
def store_cache_metadata (s : CacheStore) (m : HttpCacheMetadata) :
    CacheStore :=
  if m.etag = none ∧ m.last_modified = none then remove_cache_metadata s
  else write_cache_metadata s m

/-- The one HTTP exchange `fetch_with_cache` may perform: `failed` models
`request.send()` returning `Err`, otherwise the status, response validators,
and body (`none` models a failing `response.text()`). -/
inductive HttpResponse where
  | failed
  | ok (status : Nat) (etag last_modified : Option String)
      (body : Option String)
  deriving DecidableEq

structure FetchOutcome where
  requested : Bool
  sent_if_none_match : Option String
  sent_if_modified_since : Option String
  result : Except String String
  store : CacheStore

/-- The stale-fallback paths of `fetch_with_cache`: serve a stale cached copy
when one survives the age check, else surface the error. -/
def stale_fallback (s1 : CacheStore) (ttl : Nat) (msg : String) :
    FetchOutcome :=
  ⟨true, (s1.meta.getD ⟨none, none⟩).etag,
    (s1.meta.getD ⟨none, none⟩).last_modified,
    match (read_cache_text s1 (some ttl) true).2 with
    | some cached => Except.ok cached
    | none => Except.error msg,
    (read_cache_text s1 (some ttl) true).1⟩

/-- The network half of `fetch_with_cache` (registry.rs lines 211-282),
reached only when no fresh cached copy exists: a conditional GET carrying the
stored validators, with `304` served from the revalidated cache, success
persisting body and validators, and errors falling back to stale copies. -/
def fetch_request (s1 : CacheStore) (ttl : Nat) (net : HttpResponse) :
    FetchOutcome :=
  match net with
  | HttpResponse.failed => stale_fallback s1 ttl "network error"
  | HttpResponse.ok status etag last_modified body =>
    if status = 304 then
      stale_fallback s1 ttl "registry returned 304 but cache entry is missing"
    else if ¬ (200 ≤ status ∧ status < 300) then
      stale_fallback s1 ttl "registry request failed with status"
    else
      match body with
      | none => stale_fallback s1 ttl "network error"
      | some b =>
        ⟨true, (s1.meta.getD ⟨none, none⟩).etag,
          (s1.meta.getD ⟨none, none⟩).last_modified, Except.ok b,
          store_cache_metadata (write_cache_text s1 b)
            ⟨etag, last_modified⟩⟩

/-- `fetch_with_cache` (registry.rs lines 199-283): a fresh (within-TTL)
cached copy short-circuits with no request at all; otherwise the conditional
GET of `fetch_request` runs against the (possibly just purged) store. -/
def fetch_with_cache (store : CacheStore) (ttl : Nat) (net : HttpResponse) :
    FetchOutcome :=
  match (read_cache_text store (some ttl) false).2 with
  | some fresh =>
    ⟨false, none, none, Except.ok fresh,
      (read_cache_text store (some ttl) false).1⟩
  | none => fetch_request ((read_cache_text store (some ttl) false).1) ttl net

theorem fetch_request_failed (s1 : CacheStore) (ttl : Nat) :
    fetch_request s1 ttl HttpResponse.failed =
      stale_fallback s1 ttl "network error" := rfl

theorem fetch_request_ok (s1 : CacheStore) (ttl status : Nat)
    (etag lm : Option String) (body : Option String) :
    fetch_request s1 ttl (HttpResponse.ok status etag lm body) =
      (if status = 304 then
        stale_fallback s1 ttl
          "registry returned 304 but cache entry is missing"
      else if ¬ (200 ≤ status ∧ status < 300) then
        stale_fallback s1 ttl "registry request failed with status"
      else
        match body with
        | none => stale_fallback s1 ttl "network error"
        | some b =>
          ⟨true, (s1.meta.getD ⟨none, none⟩).etag,
            (s1.meta.getD ⟨none, none⟩).last_modified, Except.ok b,
            store_cache_metadata (write_cache_text s1 b)
              ⟨etag, lm⟩⟩) := rfl

theorem read_cache_text_fresh (s : CacheStore) (text : String)
    (elapsed ttl : Nat) (h : s.entry = some (text, elapsed))
    (h1 : elapsed ≤ MAX_CACHE_AGE_SECS) (h2 : elapsed ≤ ttl) :
    read_cache_text s (some ttl) false = (s, some text) := by
  unfold read_cache_text
  simp only [h]
  rw [if_neg (by omega)]
  rw [if_neg (by simp; omega)]

theorem read_cache_text_stale (s : CacheStore) (text : String)
    (elapsed : Nat) (ttl : Option Nat) (h : s.entry = some (text, elapsed))
    (h1 : elapsed ≤ MAX_CACHE_AGE_SECS) :
    read_cache_text s ttl true = (s, some text) := by
  unfold read_cache_text
  simp only [h]
  rw [if_neg (by omega)]
  simp

theorem read_cache_text_absent (s : CacheStore) (ttl : Option Nat)
    (accept_stale : Bool) (h : s.entry = none) :
    read_cache_text s ttl accept_stale = (s, none) := by
  unfold read_cache_text
  simp only [h]

/-- C10 (part): entries older than thirty days are purged on read. -/
theorem read_cache_text_too_old (s : CacheStore) (text : String)
    (elapsed : Nat) (ttl : Option Nat) (accept_stale : Bool)
    (h : s.entry = some (text, elapsed))
    (hold : MAX_CACHE_AGE_SECS < elapsed) :
    read_cache_text s ttl accept_stale = (⟨none, none⟩, none) := by
  unfold read_cache_text
  simp only [h]
  rw [if_pos hold]
  rfl

theorem fetch_request_sent (s1 : CacheStore) (ttl : Nat)
    (net : HttpResponse) :
    (fetch_request s1 ttl net).requested = true ∧
    (fetch_request s1 ttl net).sent_if_none_match =
      (s1.meta.getD ⟨none, none⟩).etag ∧
    (fetch_request s1 ttl net).sent_if_modified_since =
      (s1.meta.getD ⟨none, none⟩).last_modified := by
  rcases net with _ | ⟨status, etag, lm, body⟩
  · exact ⟨rfl, rfl, rfl⟩
  · rw [fetch_request_ok]
    by_cases h304 : status = 304
    · rw [if_pos h304]
      exact ⟨rfl, rfl, rfl⟩
    · rw [if_neg h304]
      by_cases hsucc : ¬ (200 ≤ status ∧ status < 300)
      · rw [if_pos hsucc]
        exact ⟨rfl, rfl, rfl⟩
      · rw [if_neg hsucc]
        rcases body with _ | b
        · exact ⟨rfl, rfl, rfl⟩
        · exact ⟨rfl, rfl, rfl⟩

theorem store_cache_metadata_entry (s : CacheStore) (m : HttpCacheMetadata) :
    (store_cache_metadata s m).entry = s.entry := by
  unfold store_cache_metadata
  split <;> rfl

theorem store_cache_metadata_meta (s : CacheStore) (m : HttpCacheMetadata) :
    (store_cache_metadata s m).meta =
      if m.etag = none ∧ m.last_modified = none then none else some m := by
  unfold store_cache_metadata
  split <;> simp_all [remove_cache_metadata, write_cache_metadata]

theorem fresh_none_of_entry_none (store : CacheStore) (ttl : Nat)
    (h : (read_cache_text store (some ttl) false).1.entry = none) :
    (read_cache_text store (some ttl) false).2 = none := by
  rcases hs : store.entry with _ | ⟨text, elapsed⟩
  · rw [read_cache_text_absent store _ _ hs]
  · by_cases hold : MAX_CACHE_AGE_SECS < elapsed
    · rw [read_cache_text_too_old store text elapsed _ _ hs hold]
    · have hkeep : (read_cache_text store (some ttl) false).1 = store := by
        unfold read_cache_text
        simp only [hs]
        rw [if_neg hold]
        split <;> rfl
      rw [hkeep, hs] at h
      cases h

/-- C5. The registry cache fetch protocol: a cached copy fresh within the TTL
(and the 30-day hard cap) is returned as-is with no network request; in every
other case a conditional GET is issued carrying exactly the stored
`ETag`/`Last-Modified` validators; a `304 Not Modified` answer serves the
surviving stale cached copy; a 2xx answer with a readable body is returned
while the body (with a fresh timestamp) and the new validators replace the
cached ones; a transport error or non-success status serves a surviving stale
copy, and when no cached copy survives the error is propagated. -/
theorem fetch_with_cache_protocol :
    (∀ (store : CacheStore) (ttl : Nat) (net : HttpResponse)
      (text : String) (elapsed : Nat),
      store.entry = some (text, elapsed) → elapsed ≤ MAX_CACHE_AGE_SECS →
      elapsed ≤ ttl →
      fetch_with_cache store ttl net =
        ⟨false, none, none, Except.ok text, store⟩) ∧
    (∀ (store : CacheStore) (ttl : Nat) (net : HttpResponse),
      (read_cache_text store (some ttl) false).2 = none →
      (fetch_with_cache store ttl net).requested = true ∧
      (fetch_with_cache store ttl net).sent_if_none_match =
        (((read_cache_text store (some ttl) false).1).meta.getD
          ⟨none, none⟩).etag ∧
      (fetch_with_cache store ttl net).sent_if_modified_since =
        (((read_cache_text store (some ttl) false).1).meta.getD
          ⟨none, none⟩).last_modified) ∧
    (∀ (store : CacheStore) (ttl : Nat) (etag lm : Option String)
      (body : Option String) (text : String) (elapsed : Nat),
      (read_cache_text store (some ttl) false).2 = none →
      (read_cache_text store (some ttl) false).1.entry =
        some (text, elapsed) →
      elapsed ≤ MAX_CACHE_AGE_SECS →
      (fetch_with_cache store ttl (HttpResponse.ok 304 etag lm body)).result =
        Except.ok text) ∧
    (∀ (store : CacheStore) (ttl : Nat) (status : Nat)
      (etag lm : Option String) (b : String),
      (read_cache_text store (some ttl) false).2 = none →
      200 ≤ status → status < 300 →
      (fetch_with_cache store ttl
          (HttpResponse.ok status etag lm (some b))).result = Except.ok b ∧
      (fetch_with_cache store ttl
          (HttpResponse.ok status etag lm (some b))).store.entry =
        some (b, 0) ∧
      (fetch_with_cache store ttl
          (HttpResponse.ok status etag lm (some b))).store.meta =
        (if etag = none ∧ lm = none then none
         else some ⟨etag, lm⟩)) ∧
    (∀ (store : CacheStore) (ttl : Nat) (text : String) (elapsed : Nat),
      (read_cache_text store (some ttl) false).2 = none →
      (read_cache_text store (some ttl) false).1.entry =
        some (text, elapsed) →
      elapsed ≤ MAX_CACHE_AGE_SECS →
      (fetch_with_cache store ttl HttpResponse.failed).result =
        Except.ok text) ∧
    (∀ (store : CacheStore) (ttl : Nat) (status : Nat)
      (etag lm : Option String) (body : Option String)
      (text : String) (elapsed : Nat),
      (read_cache_text store (some ttl) false).2 = none →
      ¬ (200 ≤ status ∧ status < 300) →
      (read_cache_text store (some ttl) false).1.entry =
        some (text, elapsed) →
      elapsed ≤ MAX_CACHE_AGE_SECS →
      (fetch_with_cache store ttl
          (HttpResponse.ok status etag lm body)).result = Except.ok text) ∧
    (∀ (store : CacheStore) (ttl : Nat),
      (read_cache_text store (some ttl) false).1.entry = none →
      (∃ msg, (fetch_with_cache store ttl HttpResponse.failed).result =
        Except.error msg) ∧
      (∀ (status : Nat) (etag lm : Option String) (body : Option String),
        ¬ (200 ≤ status ∧ status < 300) →
        ∃ msg, (fetch_with_cache store ttl
          (HttpResponse.ok status etag lm body)).result =
            Except.error msg)) := by
  have hfreshcase : ∀ (store : CacheStore) (ttl : Nat) (net : HttpResponse)
      (text : String) (elapsed : Nat),
      store.entry = some (text, elapsed) → elapsed ≤ MAX_CACHE_AGE_SECS →
      elapsed ≤ ttl →
      fetch_with_cache store ttl net =
        ⟨false, none, none, Except.ok text, store⟩ := by
    intro store ttl net text elapsed h h1 h2
    unfold fetch_with_cache
    rw [read_cache_text_fresh store text elapsed ttl h h1 h2]
  have hreq : ∀ (store : CacheStore) (ttl : Nat) (net : HttpResponse),
      (read_cache_text store (some ttl) false).2 = none →
      fetch_with_cache store ttl net =
        fetch_request ((read_cache_text store (some ttl) false).1) ttl
          net := by
    intro store ttl net hnf
    unfold fetch_with_cache
    rw [hnf]
  refine ⟨hfreshcase, ?_, ?_, ?_, ?_, ?_, ?_⟩
  · intro store ttl net hnf
    rw [hreq store ttl net hnf]
    exact fetch_request_sent _ ttl net
  · intro store ttl etag lm body text elapsed hnf hstale hle
    rw [hreq store ttl _ hnf]
    rw [fetch_request_ok, if_pos rfl]
    unfold stale_fallback
    rw [read_cache_text_stale _ text elapsed _ hstale hle]
  · intro store ttl status etag lm b hnf h200 h300
    rw [hreq store ttl _ hnf]
    rw [fetch_request_ok, if_neg (by omega),
      if_neg (not_not_intro ⟨h200, h300⟩)]
    refine ⟨rfl, ?_, ?_⟩
    · rw [store_cache_metadata_entry]
      rfl
    · rw [store_cache_metadata_meta]
  · intro store ttl text elapsed hnf hstale hle
    rw [hreq store ttl _ hnf]
    rw [fetch_request_failed]
    unfold stale_fallback
    rw [read_cache_text_stale _ text elapsed _ hstale hle]
  · intro store ttl status etag lm body text elapsed hnf hfail hstale hle
    rw [hreq store ttl _ hnf]
    rw [fetch_request_ok]
    by_cases h304 : status = 304
    · rw [if_pos h304]
      unfold stale_fallback
      rw [read_cache_text_stale _ text elapsed _ hstale hle]
    · rw [if_neg h304, if_pos hfail]
      unfold stale_fallback
      rw [read_cache_text_stale _ text elapsed _ hstale hle]
  · intro store ttl hnone
    have hnf := fresh_none_of_entry_none store ttl hnone
    constructor
    · rw [hreq store ttl _ hnf]
      rw [fetch_request_failed]
      unfold stale_fallback
      rw [read_cache_text_absent _ _ _ hnone]
      exact ⟨"network error", rfl⟩
    · intro status etag lm body hfail
      rw [hreq store ttl _ hnf]
      rw [fetch_request_ok]
      by_cases h304 : status = 304
      · rw [if_pos h304]
        unfold stale_fallback
        rw [read_cache_text_absent _ _ _ hnone]
        exact ⟨"registry returned 304 but cache entry is missing", rfl⟩
      · rw [if_neg h304, if_pos hfail]
        unfold stale_fallback
        rw [read_cache_text_absent _ _ _ hnone]
        exact ⟨"registry request failed with status", rfl⟩

theorem fetch_with_cache_protocol_witness :
    fetch_with_cache ⟨some ("body", 10), some ⟨some "E", none⟩⟩ 100
        HttpResponse.failed =
      ⟨false, none, none, Except.ok "body",
        ⟨some ("body", 10), some ⟨some "E", none⟩⟩⟩ :=
  fetch_with_cache_protocol.1 ⟨some ("body", 10), some ⟨some "E", none⟩⟩
    100 HttpResponse.failed "body" 10 rfl (by decide) (by decide)

/-- C10. A cache entry whose modification time lies more than thirty days in
the past reads as `None` and is purged together with its metadata sidecar,
even when `accept_stale` is true; consequently the registry client's
stale-on-error fallback never serves content older than thirty days — any
value it still returns came out of a successful fresh response — and a fetch
failing after that purge propagates an error despite a copy having existed on
disk. -/
theorem read_cache_text_thirty_day_purge :
    (∀ (s : CacheStore) (text : String) (elapsed : Nat) (ttl : Option Nat)
      (accept_stale : Bool),
      s.entry = some (text, elapsed) → MAX_CACHE_AGE_SECS < elapsed →
      read_cache_text s ttl accept_stale = (⟨none, none⟩, none)) ∧
    (∀ (s : CacheStore) (text : String) (elapsed ttl : Nat),
      s.entry = some (text, elapsed) → MAX_CACHE_AGE_SECS < elapsed →
      ∃ msg, (fetch_with_cache s ttl HttpResponse.failed).result =
        Except.error msg) ∧
    (∀ (s : CacheStore) (text : String) (elapsed ttl : Nat)
      (net : HttpResponse) (v : String),
      s.entry = some (text, elapsed) → MAX_CACHE_AGE_SECS < elapsed →
      (fetch_with_cache s ttl net).result = Except.ok v →
      ∃ status etag lm, net = HttpResponse.ok status etag lm (some v) ∧
        200 ≤ status ∧ status < 300) ∧
    MAX_CACHE_AGE_SECS = 30 * 24 * 60 * 60 := by
  have hpurged : ∀ (s : CacheStore) (text : String) (elapsed ttl : Nat)
      (net : HttpResponse),
      s.entry = some (text, elapsed) → MAX_CACHE_AGE_SECS < elapsed →
      fetch_with_cache s ttl net =
        fetch_request ⟨none, none⟩ ttl net := by
    intro s text elapsed ttl net hs hold
    unfold fetch_with_cache
    rw [read_cache_text_too_old s text elapsed _ _ hs hold]
  refine ⟨read_cache_text_too_old, ?_, ?_, rfl⟩
  · intro s text elapsed ttl hs hold
    rw [hpurged s text elapsed ttl _ hs hold]
    rw [fetch_request_failed]
    unfold stale_fallback
    rw [read_cache_text_absent _ _ _ rfl]
    exact ⟨"network error", rfl⟩
  · intro s text elapsed ttl net v hs hold
    rw [hpurged s text elapsed ttl net hs hold] at *
    rcases net with _ | ⟨status, etag, lm, body⟩
    · intro hok
      rw [fetch_request_failed] at hok
      unfold stale_fallback at hok
      rw [read_cache_text_absent _ _ _ rfl] at hok
      cases hok
    · intro hok
      rw [fetch_request_ok] at hok
      by_cases h304 : status = 304
      · rw [if_pos h304] at hok
        unfold stale_fallback at hok
        rw [read_cache_text_absent _ _ _ rfl] at hok
        cases hok
      · rw [if_neg h304] at hok
        by_cases hfail : ¬ (200 ≤ status ∧ status < 300)
        · rw [if_pos hfail] at hok
          unfold stale_fallback at hok
          rw [read_cache_text_absent _ _ _ rfl] at hok
          cases hok
        · rw [if_neg hfail] at hok
          rcases body with _ | b
          · unfold stale_fallback at hok
            rw [read_cache_text_absent _ _ _ rfl] at hok
            cases hok
          · simp only at hok
            obtain rfl : b = v := by
              simpa using hok
            push_neg at hfail
            exact ⟨status, etag, lm, rfl, not_not.mp (by tauto),
              by tauto⟩

theorem read_cache_text_thirty_day_purge_witness :
    read_cache_text ⟨some ("old", 2592001), some ⟨some "E", none⟩⟩
        (some 60000) true = (⟨none, none⟩, none) ∧
    ∃ msg, (fetch_with_cache ⟨some ("old", 2592001), some ⟨some "E", none⟩⟩
        60000 HttpResponse.failed).result = Except.error msg :=
  ⟨read_cache_text_thirty_day_purge.1 _ "old" 2592001 (some 60000) true rfl
      (by decide),
   read_cache_text_thirty_day_purge.2.1 _ "old" 2592001 60000 rfl
      (by decide)⟩

/-!
## Workspace model (`types.rs`, `commands/add.rs`)

The slices of `Config` and `WorkspaceHandle` consumed by the embedded
functions (alias targets, export settings, workspace kind); fields the
embedded code never reads (style, Tailwind, schema, …) are omitted.
Absolute paths are opaque `String` keys as in the filesystem model. -/

inductive WorkspaceKind where
  | App
  | Ui
  | Library
  deriving DecidableEq

inductive AliasTarget where
  | Path (path : String)
  | Paths (filesystem : String) (imp : Option String)
  deriving DecidableEq

def AliasTarget.filesystem_path : AliasTarget → String
  | AliasTarget.Path p => p
  | AliasTarget.Paths f _ => f

def AliasTarget.import_alias : AliasTarget → Option String
  | AliasTarget.Path _ => none
  | AliasTarget.Paths _ i => i

inductive ExportStrategy where
  | Named
  deriving DecidableEq

structure ExportsTargetConfig where
  barrel : String
  strategy : ExportStrategy
  deriving DecidableEq

structure ExportsConfig where
  components : Option ExportsTargetConfig
  deriving DecidableEq

structure Aliases where
  components : AliasTarget
  utils : AliasTarget
  deriving DecidableEq

structure Config where
  aliases : Aliases
  exports : Option ExportsConfig
  deriving DecidableEq

inductive PackageManagerKind where
  | Npm
  | Pnpm
  | Yarn
  | Bun
  deriving DecidableEq

/-- `workspace.rs::PackageManagerContext`: repo root, optional workspace
root and package name, and the package manager recorded for the run. -/
structure PackageManagerContext where
  repo_root : String
  workspace_root : Option String
  workspace_package : Option String
  package_manager : Option PackageManagerKind
  deriving DecidableEq

/-- The `WorkspaceHandle` fields read by the embedded `add.rs` functions. -/
structure WorkspaceHandle where
  id : String
  label : String
  kind : WorkspaceKind
  root_abs : String
  config : Config
  alias_prefix : String
  component_import_alias : Option String
  package_manager_context : PackageManagerContext
  deriving DecidableEq

structure WorkspaceContext where
  current_dir : String
  handles : List WorkspaceHandle
  deriving DecidableEq

def WorkspaceContext.handle_by_id (context : WorkspaceContext)
    (id : String) : Option WorkspaceHandle :=
  context.handles.find? (fun handle => handle.id = id)

/-- The predicate iterated by `select_dependency_target`'s `find` calls:
the id resolves to a handle of the given kind. -/
def kind_matches (context : WorkspaceContext) (kind : WorkspaceKind)
    (id : String) : Bool :=
  match context.handle_by_id id with
  | some handle => decide (handle.kind = kind)
  | none => false

/-- `select_dependency_target` (add.rs lines 878-912).  `workspace_ids` is
the iteration sequence of the `HashSet<String>` of workspace ids a
component's files were written into; `std` hash-set iteration order is
unspecified (seeded per process), so the enumeration is an explicit input of
the model. -/
def select_dependency_target (workspace_ids : List String)
    (context : WorkspaceContext) : Option String :=
  if workspace_ids.isEmpty then none
  else
    match workspace_ids.find? (kind_matches context WorkspaceKind.Ui) with
    | some id => some id
    | none =>
      match workspace_ids.find?
          (kind_matches context WorkspaceKind.Library) with
      | some id => some id
      | none => workspace_ids.head?

/-- C9 (counterexample). The fallback pick of `select_dependency_target` is
whatever element the hash-set iterator yields first, not a function of the
set itself: the two enumerations of the same two-element id set (neither
workspace being `Ui` or `Library`) produce different picks, so no rule
phrased on the set alone — in particular "the first-seen workspace id" —
describes the fallback. -/
theorem select_dependency_target_order_dependent :
    (∀ x, x ∈ (["w1", "w2"] : List String) ↔
      x ∈ (["w2", "w1"] : List String)) ∧
    select_dependency_target ["w1", "w2"]
      ⟨"", [⟨"w1", "w1", WorkspaceKind.App, "", ⟨⟨AliasTarget.Path "",
          AliasTarget.Path ""⟩, none⟩, "@", none, ⟨"", none, none, none⟩⟩,
        ⟨"w2", "w2", WorkspaceKind.App, "", ⟨⟨AliasTarget.Path "",
          AliasTarget.Path ""⟩, none⟩, "@", none, ⟨"", none, none, none⟩⟩]⟩ = some "w1" ∧
    select_dependency_target ["w2", "w1"]
      ⟨"", [⟨"w1", "w1", WorkspaceKind.App, "", ⟨⟨AliasTarget.Path "",
          AliasTarget.Path ""⟩, none⟩, "@", none, ⟨"", none, none, none⟩⟩,
        ⟨"w2", "w2", WorkspaceKind.App, "", ⟨⟨AliasTarget.Path "",
          AliasTarget.Path ""⟩, none⟩, "@", none, ⟨"", none, none, none⟩⟩]⟩ = some "w2" := by
  refine ⟨?_, by decide, by decide⟩
  intro x
  simp [or_comm]

/-- C9 (amended). For every workspace context and every enumeration of the
set of workspace ids a component's files were written into,
`select_dependency_target` picks some workspace of kind `Ui` if any is in the
set; otherwise some workspace of kind `Library` if any is in the set;
otherwise the first id its hash-set iterator yields (an unspecified element
of the set, not necessarily first-seen); and for an empty set it picks
none — the pick always belongs to the set. -/
theorem select_dependency_target_priority
    (context : WorkspaceContext) (workspace_ids : List String) :
    (select_dependency_target workspace_ids context = none ↔
      workspace_ids = []) ∧
    (∀ id, select_dependency_target workspace_ids context = some id →
      id ∈ workspace_ids) ∧
    ((∃ id ∈ workspace_ids,
        kind_matches context WorkspaceKind.Ui id = true) →
      ∃ id, select_dependency_target workspace_ids context = some id ∧
        kind_matches context WorkspaceKind.Ui id = true) ∧
    ((∀ id ∈ workspace_ids,
        kind_matches context WorkspaceKind.Ui id = false) →
      (∃ id ∈ workspace_ids,
        kind_matches context WorkspaceKind.Library id = true) →
      ∃ id, select_dependency_target workspace_ids context = some id ∧
        kind_matches context WorkspaceKind.Library id = true) ∧
    ((∀ id ∈ workspace_ids,
        kind_matches context WorkspaceKind.Ui id = false) →
      (∀ id ∈ workspace_ids,
        kind_matches context WorkspaceKind.Library id = false) →
      select_dependency_target workspace_ids context =
        workspace_ids.head?) := by
  rcases workspace_ids with _ | ⟨id0, rest⟩
  · refine ⟨by simp [select_dependency_target], ?_, ?_, ?_, ?_⟩
    · intro id h
      simp [select_dependency_target] at h
    · intro h
      simp at h
    · intro _ h
      simp at h
    · intro _ _
      simp [select_dependency_target]
  · have hne : ((id0 :: rest).isEmpty) = false := rfl
    refine ⟨?_, ?_, ?_, ?_, ?_⟩
    · constructor
      · intro h
        unfold select_dependency_target at h
        rw [hne] at h
        simp only [Bool.false_eq_true, if_false] at h
        rcases h1 : (id0 :: rest).find?
            (kind_matches context WorkspaceKind.Ui) with _ | u
        · rw [h1] at h
          rcases h2 : (id0 :: rest).find?
              (kind_matches context WorkspaceKind.Library) with _ | v
          · rw [h2] at h
            cases h
          · rw [h2] at h
            cases h
        · rw [h1] at h
          cases h
      · intro h
        cases h
    · intro id h
      unfold select_dependency_target at h
      rw [hne] at h
      simp only [Bool.false_eq_true, if_false] at h
      rcases h1 : (id0 :: rest).find?
          (kind_matches context WorkspaceKind.Ui) with _ | u
      · rw [h1] at h
        rcases h2 : (id0 :: rest).find?
            (kind_matches context WorkspaceKind.Library) with _ | v
        · rw [h2] at h
          obtain rfl : id0 = id := by simpa using h
          exact List.mem_cons_self _ _
        · rw [h2] at h
          obtain rfl : v = id := by simpa using h
          exact List.mem_of_find?_eq_some h2
      · rw [h1] at h
        obtain rfl : u = id := by simpa using h
        exact List.mem_of_find?_eq_some h1
    · rintro ⟨uid, huid, hkind⟩
      rcases h1 : (id0 :: rest).find?
          (kind_matches context WorkspaceKind.Ui) with _ | u
      · exact absurd hkind (by
          simpa using List.find?_eq_none.mp h1 uid huid)
      · refine ⟨u, ?_, List.find?_some h1⟩
        unfold select_dependency_target
        rw [hne]
        simp only [Bool.false_eq_true, if_false]
        rw [h1]
    · intro hnoui hlib
      rcases hlib with ⟨lid, hlid, hkind⟩
      have h1 : (id0 :: rest).find?
          (kind_matches context WorkspaceKind.Ui) = none :=
        List.find?_eq_none.mpr (fun x hx => by simp [hnoui x hx])
      rcases h2 : (id0 :: rest).find?
          (kind_matches context WorkspaceKind.Library) with _ | v
      · exact absurd hkind (by
          simpa using List.find?_eq_none.mp h2 lid hlid)
      · refine ⟨v, ?_, List.find?_some h2⟩
        unfold select_dependency_target
        rw [hne]
        simp only [Bool.false_eq_true, if_false]
        rw [h1, h2]
    · intro hnoui hnolib
      have h1 : (id0 :: rest).find?
          (kind_matches context WorkspaceKind.Ui) = none :=
        List.find?_eq_none.mpr (fun x hx => by simp [hnoui x hx])
      have h2 : (id0 :: rest).find?
          (kind_matches context WorkspaceKind.Library) = none :=
        List.find?_eq_none.mpr (fun x hx => by simp [hnolib x hx])
      unfold select_dependency_target
      rw [hne]
      simp only [Bool.false_eq_true, if_false]
      rw [h1, h2]

theorem select_dependency_target_priority_witness :
    ∃ id, select_dependency_target ["w1", "wui"]
      ⟨"", [⟨"w1", "w1", WorkspaceKind.App, "", ⟨⟨AliasTarget.Path "",
          AliasTarget.Path ""⟩, none⟩, "@", none, ⟨"", none, none, none⟩⟩,
        ⟨"wui", "wui", WorkspaceKind.Ui, "", ⟨⟨AliasTarget.Path "",
          AliasTarget.Path ""⟩, none⟩, "@", none, ⟨"", none, none, none⟩⟩]⟩ = some id ∧
      kind_matches
        ⟨"", [⟨"w1", "w1", WorkspaceKind.App, "", ⟨⟨AliasTarget.Path "",
            AliasTarget.Path ""⟩, none⟩, "@", none, ⟨"", none, none, none⟩⟩,
          ⟨"wui", "wui", WorkspaceKind.Ui, "", ⟨⟨AliasTarget.Path "",
            AliasTarget.Path ""⟩, none⟩, "@", none, ⟨"", none, none, none⟩⟩]⟩
        WorkspaceKind.Ui id = true :=
  (select_dependency_target_priority _ _).2.2.1
    ⟨"wui", by decide, by decide⟩

/-!
## Import Path Normalizer (`add.rs`)

`normalize_component_content` (add.rs lines 1201-1228) and its helpers.
Content is processed as its character list.  The `IMPORT_NORMALIZE_RE` regex
`(['"])@/([^'"\n]+)(['"])` is embedded as a deterministic scanner: its
character class excludes the closing-quote set, so the regex engine's
leftmost-first, non-overlapping `replace_all` is exactly the left-to-right
scan implemented here.  Rust's `trim_start_matches` (which strips the pattern
repeatedly) uses a fuel bounded by the string length, as does the scanner. -/

def trimStartMatchesGo (pre : List Char) : Nat → List Char → List Char
  | 0, s => s
  | n + 1, s =>
    if pre ≠ [] ∧ pre.isPrefixOf s then
      trimStartMatchesGo pre n (s.drop pre.length)
    else s

/-- `str::trim_start_matches(pattern)`: repeatedly strip a leading match. -/
def trimStartMatches (pre s : List Char) : List Char :=
  trimStartMatchesGo pre s.length s

/-- `str::trim_end_matches(c)` for a single character. -/
def trimEndMatchesChar (c : Char) (s : List Char) : List Char :=
  (s.reverse.dropWhile (fun x => x = c)).reverse

/-- `str::strip_prefix`: strip one leading occurrence or fail. -/
def strip_prefix_once (pre s : List Char) : Option (List Char) :=
  if pre.isPrefixOf s then some (s.drop pre.length) else none

/-- `normalize_import_path` (add.rs lines 1230-1241): strip leading `./`
repetitions, then leading slashes, then one `app/` or `src/` prefix. -/
def normalize_import_path (import_path : List Char) : List Char :=
  let path := (trimStartMatches "./".toList import_path).dropWhile
    (fun c => c = '/')
  match strip_prefix_once "app/".toList path with
  | some stripped => stripped
  | none =>
    match strip_prefix_once "src/".toList path with
    | some stripped => stripped
    | none => path

/-- `normalize_alias_path` (add.rs lines 1644-1650). -/
def normalize_alias_path (path : List Char) : List Char :=
  trimStartMatches "app/".toList
    (trimStartMatches "src/".toList
      ((trimStartMatches "./".toList path).dropWhile (fun c => c = '/')))

/-- `join_import_path` (add.rs lines 1243-1254). -/
def join_import_path (pfx import_path : List Char) : List Char :=
  let sanitized := trimEndMatchesChar '/' pfx
  if import_path.isEmpty then sanitized
  else sanitized ++ '/' :: import_path.dropWhile (fun c => c = '/')

/-- `component_relative_path` (add.rs lines 1667-1692). -/
def component_relative_path (handle : WorkspaceHandle)
    (path : List Char) : Option (List Char) :=
  let normalized := (trimStartMatches "./".toList path).dropWhile
    (fun c => c = '/')
  if normalized = "components".toList then some []
  else
    match strip_prefix_once "components/".toList normalized with
    | none => none
    | some stripped =>
      let alias_suffix := normalize_alias_path
        handle.config.aliases.components.filesystem_path.toList
      let sfx := (trimStartMatches "components/".toList
        alias_suffix).dropWhile (fun c => c = '/')
      some
        (if sfx.isEmpty then stripped
         else
           match strip_prefix_once sfx stripped with
           | some after => after.dropWhile (fun c => c = '/')
           | none => stripped)

/-- The replacement closure of `normalize_component_content` (add.rs lines
1209-1226) applied to one captured `@/` path. -/
def import_replacement (handle : WorkspaceHandle) (raw : List Char) :
    List Char :=
  let alias_pfx := trimEndMatchesChar '/' handle.alias_prefix.toList
  let path := normalize_import_path raw
  match handle.component_import_alias with
  | some custom_alias =>
    let custom := trimEndMatchesChar '/' custom_alias.toList
    match component_relative_path handle path with
    | some relative =>
      if relative.isEmpty then custom else join_import_path custom relative
    | none => join_import_path alias_pfx path
  | none => join_import_path alias_pfx path

def isQuoteChar (c : Char) : Bool := c == '\'' || c == '"'

def isPathStop (c : Char) : Bool := isQuoteChar c || c == '\n'

/-- Attempt `IMPORT_NORMALIZE_RE` at the head of the list: an opening quote,
`@/`, a nonempty run of characters outside `'`, `"`, newline, then a closing
quote.  Returns the captures and the remainder after the match. -/
def matchImportAt (s : List Char) :
    Option (Char × List Char × Char × List Char) :=
  match s with
  | q :: a :: b :: rest =>
    if isQuoteChar q && a == '@' && b == '/' then
      if (rest.takeWhile (fun c => !(isPathStop c))).isEmpty then none
      else
        match rest.dropWhile (fun c => !(isPathStop c)) with
        | cq :: rest3 =>
          if isQuoteChar cq then
            some (q, rest.takeWhile (fun c => !(isPathStop c)), cq, rest3)
          else none
        | [] => none
    else none
  | _ => none

/-- `Regex::replace_all` specialised to `IMPORT_NORMALIZE_RE` with the
replacement closure: scan left to right, replacing each non-overlapping
match.  Fuel is the content length (each step consumes at least one
character). -/
def replace_imports_go (handle : WorkspaceHandle) :
    Nat → List Char → List Char
  | 0, s => s
  | n + 1, s =>
    match matchImportAt s with
    | some (q, run, cq, rest) =>
      (q :: import_replacement handle run) ++
        cq :: replace_imports_go handle n rest
    | none =>
      match s with
      | [] => []
      | c :: cs => c :: replace_imports_go handle n cs

/-- `normalize_component_content` (add.rs lines 1201-1228). -/
def normalize_component_content (content : String)
    (handle : WorkspaceHandle) : String :=
  String.mk (replace_imports_go handle content.toList.length content.toList)

/-- A successful match decomposes the input as quote, `@/`, run, quote,
remainder. -/
theorem matchImportAt_decomp (s : List Char) (q cq : Char)
    (run rest : List Char)
    (h : matchImportAt s = some (q, run, cq, rest)) :
    s = q :: '@' :: '/' :: (run ++ cq :: rest) := by
  rcases s with _ | ⟨q', s1⟩
  · simp [matchImportAt] at h
  rcases s1 with _ | ⟨a, s2⟩
  · simp [matchImportAt] at h
  rcases s2 with _ | ⟨b, r⟩
  · simp [matchImportAt] at h
  rw [show matchImportAt (q' :: a :: b :: r) =
      (if isQuoteChar q' && a == '@' && b == '/' then
        if (r.takeWhile (fun c => !(isPathStop c))).isEmpty then none
        else
          match r.dropWhile (fun c => !(isPathStop c)) with
          | cq :: rest3 =>
            if isQuoteChar cq then
              some (q', r.takeWhile (fun c => !(isPathStop c)), cq, rest3)
            else none
          | [] => none
      else none) from rfl] at h
  by_cases hq : (isQuoteChar q' && a == '@' && b == '/') = true
  · rw [if_pos hq] at h
    rw [Bool.and_eq_true, Bool.and_eq_true] at hq
    obtain ⟨⟨_, ha⟩, hb⟩ := hq
    obtain rfl : a = '@' := by simpa using ha
    obtain rfl : b = '/' := by simpa using hb
    by_cases hrun : (r.takeWhile (fun c => !(isPathStop c))).isEmpty = true
    · rw [if_pos hrun] at h
      cases h
    · rw [if_neg hrun] at h
      rcases hd : r.dropWhile (fun c => !(isPathStop c)) with _ | ⟨cq', rest3⟩
      · rw [hd] at h
        cases h
      · simp only [hd] at h
        by_cases hcq : isQuoteChar cq' = true
        · rw [if_pos hcq] at h
          obtain ⟨rfl, rfl, rfl, rfl⟩ :
              q' = q ∧ r.takeWhile (fun c => !(isPathStop c)) = run ∧
                cq' = cq ∧ rest3 = rest := by
            simpa [Prod.ext_iff] using h
          have hsplit := List.takeWhile_append_dropWhile
            (p := fun c => !(isPathStop c)) (l := r)
          rw [hd] at hsplit
          rw [hsplit]
        · rw [if_neg hcq] at h
          cases h
  · rw [if_neg hq] at h
    cases h

/-- Checker for the amended idempotence statement: every regex match in the
content rewrites to itself (its replacement equals the matched text). -/
def self_normalized_go (handle : WorkspaceHandle) :
    Nat → List Char → Bool
  | 0, _ => true
  | n + 1, s =>
    match matchImportAt s with
    | some (q, run, cq, rest) =>
      decide (import_replacement handle run = '@' :: '/' :: run) &&
        self_normalized_go handle n rest
    | none =>
      match s with
      | [] => true
      | _ :: cs => self_normalized_go handle n cs

def self_normalized (handle : WorkspaceHandle) (content : String) : Bool :=
  self_normalized_go handle content.toList.length content.toList

theorem self_normalized_go_succ (handle : WorkspaceHandle) (n : Nat)
    (s : List Char) :
    self_normalized_go handle (n + 1) s =
      match matchImportAt s with
      | some (q, run, cq, rest) =>
        decide (import_replacement handle run = '@' :: '/' :: run) &&
          self_normalized_go handle n rest
      | none =>
        match s with
        | [] => true
        | _ :: cs => self_normalized_go handle n cs := rfl

theorem replace_imports_go_succ (handle : WorkspaceHandle) (n : Nat)
    (s : List Char) :
    replace_imports_go handle (n + 1) s =
      match matchImportAt s with
      | some (q, run, cq, rest) =>
        (q :: import_replacement handle run) ++
          cq :: replace_imports_go handle n rest
      | none =>
        match s with
        | [] => []
        | c :: cs => c :: replace_imports_go handle n cs := rfl

theorem replace_imports_self (handle : WorkspaceHandle) :
    ∀ n s, self_normalized_go handle n s = true →
      replace_imports_go handle n s = s := by
  intro n
  induction n with
  | zero => intro s _; rfl
  | succ n ih =>
      intro s hself
      rw [self_normalized_go_succ] at hself
      rw [replace_imports_go_succ]
      rcases hm : matchImportAt s with _ | ⟨q, run, cq, rest⟩
      · rw [hm] at hself
        simp only [hm]
        rcases s with _ | ⟨c, cs⟩
        · rfl
        · simp only at hself
          show c :: replace_imports_go handle n cs = c :: cs
          rw [ih cs hself]
      · rw [hm] at hself
        simp only [hm]
        simp only [Bool.and_eq_true, decide_eq_true_eq] at hself
        rw [ih rest hself.2, hself.1]
        rw [matchImportAt_decomp s q cq run rest hm]
        simp

/-- C3 (counterexample). The normalizer is not idempotent: with the default
`@` alias prefix and no component import alias, the content
`"@/src/src/button"` normalizes to `"@/src/button"` (one `src/` prefix is
stripped), and a second run strips the surviving `src/` again, yielding
`"@/button"`. -/
theorem normalize_component_content_not_idempotent :
    normalize_component_content
        (normalize_component_content "\"@/src/src/button\""
          ⟨"w", "w", WorkspaceKind.App, "",
            ⟨⟨AliasTarget.Path "components/ui", AliasTarget.Path ""⟩, none⟩,
            "@", none, ⟨"", none, none, none⟩⟩)
        ⟨"w", "w", WorkspaceKind.App, "",
          ⟨⟨AliasTarget.Path "components/ui", AliasTarget.Path ""⟩, none⟩,
          "@", none, ⟨"", none, none, none⟩⟩ ≠
      normalize_component_content "\"@/src/src/button\""
        ⟨"w", "w", WorkspaceKind.App, "",
          ⟨⟨AliasTarget.Path "components/ui", AliasTarget.Path ""⟩, none⟩,
          "@", none, ⟨"", none, none, none⟩⟩ := by
  decide

/-- C3 (amended). Running the normalizer a second time yields the same
content whenever its first output is self-normalized, i.e. every `@/` import
match in that output rewrites to itself — which the counterexample shows can
fail when a normalized path still starts with a strippable `src/`, `app/`,
`./` or `/` prefix. -/
theorem normalize_component_content_conditional_idempotent
    (handle : WorkspaceHandle) (content : String)
    (h : self_normalized handle
      (normalize_component_content content handle) = true) :
    normalize_component_content
        (normalize_component_content content handle) handle =
      normalize_component_content content handle := by
  unfold normalize_component_content at *
  exact congrArg String.mk
    (replace_imports_self handle _ _ h)

theorem normalize_component_content_conditional_idempotent_witness :
    self_normalized
      ⟨"w", "w", WorkspaceKind.App, "",
        ⟨⟨AliasTarget.Path "components/ui", AliasTarget.Path ""⟩, none⟩,
        "@", none, ⟨"", none, none, none⟩⟩
      (normalize_component_content "\"@/button\""
        ⟨"w", "w", WorkspaceKind.App, "",
          ⟨⟨AliasTarget.Path "components/ui", AliasTarget.Path ""⟩, none⟩,
          "@", none, ⟨"", none, none, none⟩⟩) = true ∧
    normalize_component_content
        (normalize_component_content "\"@/button\""
          ⟨"w", "w", WorkspaceKind.App, "",
            ⟨⟨AliasTarget.Path "components/ui", AliasTarget.Path ""⟩, none⟩,
            "@", none, ⟨"", none, none, none⟩⟩)
        ⟨"w", "w", WorkspaceKind.App, "",
          ⟨⟨AliasTarget.Path "components/ui", AliasTarget.Path ""⟩, none⟩,
          "@", none, ⟨"", none, none, none⟩⟩ =
      normalize_component_content "\"@/button\""
        ⟨"w", "w", WorkspaceKind.App, "",
          ⟨⟨AliasTarget.Path "components/ui", AliasTarget.Path ""⟩, none⟩,
          "@", none, ⟨"", none, none, none⟩⟩ :=
  ⟨by decide,
   normalize_component_content_conditional_idempotent _ _ (by decide)⟩

/-!
## Export Barrel Merger (`add.rs::sync_component_exports`)

The barrel-block parser/merger and the surrounding effectful loop
(add.rs lines 914-1199).  `BTreeMap<String, BTreeSet<String>>` is modelled as
an association list sorted by key with sorted, deduplicated value lists;
`pathdiff::diff_paths` is computed on `/`-separated segments. -/

structure ComponentEntry where
  slug : String
  component : Component
  deriving DecidableEq

def EXPORT_BLOCK_START : String := "// @nocta-ui/cli: auto-exports:start"

def EXPORT_BLOCK_END : String := "// @nocta-ui/cli: auto-exports:end"

def EXPORT_BLOCK_COMMENT : String :=
  "// This section is auto-generated by Nocta UI CLI. Do not edit manually."

/-- Insert into a sorted, deduplicated list of strings. -/
def insertSortedString (x : String) : List String → List String
  | [] => [x]
  | y :: ys =>
    if x = y then y :: ys
    else if x < y then x :: y :: ys
    else y :: insertSortedString x ys

/-- Insert one export name under a module key (`BTreeMap` entry/extend). -/
def insertExport (module name : String) :
    List (String × List String) → List (String × List String)
  | [] => [(module, [name])]
  | (k, v) :: rest =>
    if module = k then (k, insertSortedString name v) :: rest
    else if module < k then (module, [name]) :: (k, v) :: rest
    else (k, v) :: insertExport module name rest

def insertExports (module : String) (names : List String)
    (m : List (String × List String)) : List (String × List String) :=
  names.foldl (fun acc name => insertExport module name acc) m

/-- `parse_export_line` (add.rs lines 1131-1158): parse one
`export ... from "module";` line into module and export names. -/
def parse_export_line (line : String) : Option (String × List String) :=
  match strip_prefix_once "export".toList line.toList with
  | none => none
  | some export_body =>
    match strip_prefix_once ['\x7b']
        (export_body.dropWhile (fun c => c.isWhitespace)) with
    | none => none
    | some remainder =>
      let names_part := remainder.takeWhile (fun c => ¬ c = '\x7d')
      match remainder.dropWhile (fun c => ¬ c = '\x7d') with
      | [] => none
      | _ :: after_brace0 =>
        match strip_prefix_once "from".toList
            (after_brace0.dropWhile (fun c => c.isWhitespace)) with
        | none => none
        | some from_part0 =>
          match from_part0.dropWhile (fun c => c.isWhitespace) with
          | [] => none
          | quote :: after_quote =>
            if quote = '"' ∨ quote = '\'' then
              match after_quote.dropWhile (fun c => ¬ c = quote) with
              | [] => none
              | _ :: _ =>
                let module :=
                  String.mk (after_quote.takeWhile (fun c => ¬ c = quote))
                let names := (((String.mk names_part).splitOn ",").map
                  (fun name => name.trim)).filter
                    (fun name => !name.isEmpty)
                if names.isEmpty then none else some (module, names)
            else none

/-- `str::lines`: split on newlines, dropping a trailing carriage return. -/
def splitLines (body : String) : List String :=
  (body.splitOn "\n").map
    (fun line => if line.endsWith "\r" then line.dropRight 1 else line)

/-- `parse_export_lines` (add.rs lines 1113-1129). -/
def parse_export_lines (body : String) : List (String × List String) :=
  (splitLines body).foldl
    (fun m line =>
      let trimmed := line.trim
      if trimmed.isEmpty || trimmed.startsWith "//" then m
      else
        match parse_export_line trimmed with
        | some (module, names) => insertExports module names m
        | none => m)
    []

/-- Index of the first occurrence of a pattern as a contiguous sublist. -/
def findSublist (pat : List Char) : List Char → Option Nat
  | [] => if pat.isEmpty then some 0 else none
  | c :: cs =>
    if pat.isPrefixOf (c :: cs) then some 0
    else
      match findSublist pat cs with
      | some i => some (i + 1)
      | none => none

structure ExportPartition where
  before : String
  after : String
  existing_map : List (String × List String)
  deriving DecidableEq

/-- `parse_existing_export_block` (add.rs lines 1080-1111): split the barrel
around the delimited auto-generated block and parse the block body. -/
def parse_existing_export_block (content : String) : ExportPartition :=
  if content.isEmpty then ⟨"", "", []⟩
  else
    let cs := content.toList
    match findSublist EXPORT_BLOCK_START.toList cs with
    | some start_idx =>
      (match findSublist EXPORT_BLOCK_END.toList (cs.drop start_idx) with
       | some end_rel_idx =>
         let end_idx := start_idx + end_rel_idx
         let block_body_start := start_idx + EXPORT_BLOCK_START.length
         let after_start := end_idx + EXPORT_BLOCK_END.length
         ⟨String.mk (cs.take start_idx),
          (if after_start < cs.length then String.mk (cs.drop after_start)
           else ""),
          parse_export_lines (String.mk
            ((cs.drop block_body_start).take (end_idx - block_body_start)))⟩
       | none => ⟨content, "", []⟩)
    | none => ⟨content, "", []⟩

/-- `format_export_line` (add.rs lines 1166-1169). -/
def format_export_line (module : String) (names : List String) : String :=
  "export \x7b " ++ String.intercalate ", " names ++ " \x7d from \"" ++
    module ++ "\";"

def export_lines_from_map (m : List (String × List String)) : List String :=
  m.map (fun entry => format_export_line entry.1 entry.2)

/-- `build_export_block` (add.rs lines 1171-1184). -/
def build_export_block (lines : List String) : String :=
  EXPORT_BLOCK_START ++ "\n" ++ EXPORT_BLOCK_COMMENT ++ "\n" ++
    String.join (lines.map (fun line => line ++ "\n")) ++
    EXPORT_BLOCK_END ++ "\n"

def commonPrefixLen : List String → List String → Nat
  | a :: as, b :: bs => if a = b then commonPrefixLen as bs + 1 else 0
  | _, _ => 0

/-- `pathdiff::diff_paths` on `/`-separated segment lists (both paths
absolute, no `..` segments): strip the common prefix, one `..` per remaining
base segment. -/
def diff_paths (target base : String) : String :=
  let t := target.splitOn "/"
  let b := base.splitOn "/"
  let k := commonPrefixLen t b
  String.intercalate "/" (List.replicate (b.length - k) ".." ++ t.drop k)

/-- `Path::set_extension("")` on one file name segment: drop from the last
dot unless the name has no stem before it. -/
def remove_extension_segment (seg : String) : String :=
  match seg.toList.reverse.dropWhile (fun c => ¬ c = '.') with
  | [] => seg
  | _ :: stem_rev => if stem_rev.isEmpty then seg
      else String.mk stem_rev.reverse

/-- `Path::parent`, with the workspace root as the fallback the caller
supplies. -/
def parent_dir (p : String) (dflt : String) : String :=
  let segs := p.splitOn "/"
  if segs.length ≤ 1 then dflt
  else String.intercalate "/" segs.dropLast

/-- `module_path_from_barrel` (add.rs lines 1186-1199). -/
def module_path_from_barrel (barrel_dir target_path : String) : String :=
  let relative := diff_paths target_path barrel_dir
  let segs := relative.splitOn "/"
  let without_extension :=
    match segs.getLast? with
    | none => relative
    | some last =>
      String.intercalate "/"
        (segs.dropLast ++ [remove_extension_segment last])
  if without_extension.startsWith "/" then "." ++ without_extension
  else if !without_extension.startsWith "." then "./" ++ without_extension
  else without_extension

inductive ExportChangeKind where
  | Created
  | Updated
  deriving DecidableEq

structure ExportUpdate where
  workspace_label : String
  display_path : String
  statements : List String
  change : ExportChangeKind
  deriving DecidableEq

/-- The new-entries map of `sync_component_exports` for one handle (add.rs
lines 965-980): for every component file written to this workspace, the
owning component's export names under the file's module path. -/
def sync_new_entries (component_entries : List ComponentEntry)
    (workspace_files : List ComponentFileWithContent)
    (barrel_dir : String) : List (String × List String) :=
  workspace_files.foldl
    (fun m file =>
      match component_entries.find?
          (fun entry => entry.slug = file.component_slug) with
      | none => m
      | some entry =>
        if entry.component.exports.isEmpty then m
        else
          insertExports (module_path_from_barrel barrel_dir
            file.absolute_path) entry.component.exports m)
    []

/-- The assembled barrel contents (add.rs lines 1023-1037). -/
def assemble_barrel_content (partition : ExportPartition)
    (block : String) : String :=
  let with_before :=
    partition.before ++
      (if !partition.before.isEmpty ∧ !partition.before.endsWith "\n"
       then "\n" else "")
  let with_block := with_before ++ block
  if partition.after.isEmpty then with_block
  else
    (with_block ++
      (if !block.endsWith "\n" then "\n" else "") ++
      (if !partition.after.startsWith "\n" ∧
          !(with_block ++
            (if !block.endsWith "\n" then "\n" else "")).endsWith "\n"
       then "\n" else "")) ++ partition.after

/-- The pure half of one iteration of the handle loop of
`sync_component_exports` (add.rs lines 936-1068): the barrel update this
workspace needs, if any, as the `ExportUpdate` to report together with the
barrel's absolute path and its assembled new contents. -/
def sync_handle_plan (current_dir : String)
    (component_entries : List ComponentEntry)
    (files : List ComponentFileWithContent) (handle : WorkspaceHandle)
    (fs : FS) : Option (ExportUpdate × String × String) :=
  match handle.config.exports.bind (fun cfg => cfg.components) with
  | none => none
  | some exports_cfg =>
    if exports_cfg.strategy ≠ ExportStrategy.Named then none
    else
      let workspace_files := files.filter
        (fun file => file.workspace_id = handle.id ∧
          file.file_type = "component")
      if workspace_files.isEmpty then none
      else
        let barrel_abs := handle.root_abs ++ "/" ++ exports_cfg.barrel
        let barrel_dir := parent_dir barrel_abs handle.root_abs
        let new_entries :=
          sync_new_entries component_entries workspace_files barrel_dir
        if new_entries.isEmpty then none
        else
          let existing_content := fs barrel_abs
          let partition :=
            match existing_content with
            | some content => parse_existing_export_block (String.mk content)
            | none => parse_existing_export_block ""
          let merged_map := new_entries.foldl
            (fun acc entry => insertExports entry.1 entry.2 acc)
            partition.existing_map
          if merged_map = partition.existing_map then none
          else
            let block := build_export_block (export_lines_from_map merged_map)
            let new_content := assemble_barrel_content partition block
            let statements := (merged_map.filter
              (fun entry => new_entries.any
                (fun touched => touched.1 = entry.1))).map
              (fun entry => format_export_line entry.1 entry.2)
            some (⟨handle.label, diff_paths barrel_abs current_dir,
              statements,
              if existing_content.isSome then ExportChangeKind.Updated
              else ExportChangeKind.Created⟩, barrel_abs, new_content)

/-- One iteration of the handle loop of `sync_component_exports`: outside
dry-run mode, record the change (snapshotting the pre-write barrel) and
write the new contents; in dry-run mode the update is only reported. -/
def sync_handle (dry_run : Bool) (current_dir : String)
    (component_entries : List ComponentEntry)
    (files : List ComponentFileWithContent) (handle : WorkspaceHandle)
    (st : FS × List FileChange) :
    Option ExportUpdate × (FS × List FileChange) :=
  match sync_handle_plan current_dir component_entries files handle st.1 with
  | none => (none, st)
  | some (update, barrel_abs, new_content) =>
    (some update,
     if dry_run then st
     else
       (write_file st.1 barrel_abs new_content.toList,
        ensure_change_record st.1 barrel_abs st.2))

/-- `sync_component_exports` (add.rs lines 919-1071): walk the workspace
handles, updating each configured named-export barrel; in dry-run mode
nothing is recorded or written. -/
def sync_component_exports (dry_run : Bool) (context : WorkspaceContext)
    (component_entries : List ComponentEntry)
    (files : List ComponentFileWithContent) (fs : FS)
    (file_changes : List FileChange) :
    List ExportUpdate × FS × List FileChange :=
  if component_entries.isEmpty then ([], fs, file_changes)
  else
    context.handles.foldl
      (fun acc handle =>
        match sync_handle dry_run context.current_dir component_entries
            files handle (acc.2.1, acc.2.2) with
        | (some update, st') => (acc.1 ++ [update], st'.1, st'.2)
        | (none, st') => (acc.1, st'.1, st'.2))
      ([], fs, file_changes)

/-!
## Install Planner and the dependency phase of `add` (`deps.rs`, `add.rs`)

`plan_dependency_install` (deps.rs lines 191-301) and
`handle_workspace_dependencies` (add.rs lines 1324-1529).  The two
filesystem probes of the planner — `detect_package_manager(repo_root)` and
`bun_install_linker(repo_root)` — are abstracted as explicit arguments
recording their outcomes; `plan.execute()` (a subprocess spawn) is modelled
as membership in the returned `executed` list. -/

structure DependencyInstallPlan where
  package_manager : PackageManagerKind
  program : String
  args : List String
  working_directory : String
  workspace_descriptor : Option String
  dependencies : List String
  env : List (String × String)
  deriving DecidableEq

def insertStr (x : String) : List String → List String
  | [] => [x]
  | y :: ys => if x < y then x :: y :: ys else y :: insertStr x ys

/-- `Vec::sort` on the `name@version` tokens. -/
def sortStrings (l : List String) : List String :=
  l.foldr insertStr []

/-- `plan_dependency_install` (deps.rs lines 191-301): build the
package-manager invocation for one scope of one workspace.  `detected` is
the outcome of `detect_package_manager(repo_root)`, `bun_linker` the outcome
of the `bunfig` `[install] linker` probe. -/
def plan_dependency_install (dependencies : List (String × String))
    (context : PackageManagerContext)
    (detected : Option PackageManagerKind) (bun_linker : Option String) :
    Option DependencyInstallPlan :=
  if dependencies.isEmpty then none
  else
    let deps_with_versions := sortStrings
      (dependencies.map (fun d => d.1 ++ "@" ++ d.2))
    let pm_kind :=
      match context.package_manager with
      | some kind => kind
      | none =>
        match detected with
        | some kind => kind
        | none => PackageManagerKind.Npm
    let workspace_descriptor :=
      match context.workspace_package with
      | some pkg => some ("workspace `" ++ pkg ++ "`")
      | none =>
        match context.workspace_root with
        | some root => some ("directory " ++ root)
        | none => none
    let env : List (String × String) :=
      match pm_kind with
      | PackageManagerKind.Bun =>
        (match bun_linker with
         | some linker => [("BUN_INSTALL_LINKER", linker)]
         | none => [])
      | _ => []
    let program_args_cwd :=
      match pm_kind with
      | PackageManagerKind.Yarn =>
        (match context.workspace_package with
         | some pkg =>
           ("yarn", ["workspace", pkg, "add"] ++ deps_with_versions,
             context.repo_root)
         | none =>
           ("yarn", ["add"] ++ deps_with_versions,
             context.workspace_root.getD context.repo_root))
      | PackageManagerKind.Pnpm =>
        (match context.workspace_package, context.workspace_root with
         | some pkg, _ =>
           ("pnpm", ["add", "--filter", pkg] ++ deps_with_versions,
             context.repo_root)
         | none, some root =>
           ("pnpm", ["add"] ++ deps_with_versions, root)
         | none, none =>
           ("pnpm", ["add"] ++ deps_with_versions, context.repo_root))
      | PackageManagerKind.Bun =>
        ("bun",
          ["add"] ++ deps_with_versions ++
            (match context.workspace_root with
             | some root => ["--cwd", root]
             | none => []),
          context.repo_root)
      | PackageManagerKind.Npm =>
        (match context.workspace_package with
         | some pkg =>
           ("npm", ["install"] ++ deps_with_versions ++
             ["--workspace", pkg], context.repo_root)
         | none =>
           (match context.workspace_root with
            | some root => ("npm", ["install"] ++ deps_with_versions, root)
            | none =>
              ("npm", ["install"] ++ deps_with_versions,
                context.repo_root)))
    some ⟨pm_kind, program_args_cwd.1, program_args_cwd.2.1,
      program_args_cwd.2.2, workspace_descriptor, deps_with_versions, env⟩

structure WorkspaceDependencySet where
  regular : List (String × String)
  dev : List (String × String)
  deriving DecidableEq

/-- Constructed plans (printed in dry-run mode, line 1461-1470 /
1504-1513) versus executed plans (`plan.execute()`, lines 1476 and 1519). -/
structure DependencyActions where
  planned : List DependencyInstallPlan
  executed : List DependencyInstallPlan
  deriving DecidableEq

def lookupDependencySet (deps_by_workspace :
    List (String × WorkspaceDependencySet)) (id : String) :
    Option WorkspaceDependencySet :=
  (deps_by_workspace.find? (fun entry => entry.1 = id)).map
    (fun entry => entry.2)

/-- One install phase (regular or dev) of a handle (add.rs lines 1444-1482
and 1484-1525): construct the plan; in dry-run mode print its command line,
otherwise execute it. -/
def run_install_phase (dry_run : Bool)
    (to_install : List (String × String))
    (context : PackageManagerContext)
    (detected : Option PackageManagerKind) (bun_linker : Option String)
    (acc : DependencyActions) : DependencyActions :=
  if to_install.isEmpty then acc
  else
    match plan_dependency_install to_install context detected bun_linker with
    | none => acc
    | some plan =>
      if dry_run then ⟨acc.planned ++ [plan], acc.executed⟩
      else ⟨acc.planned ++ [plan], acc.executed ++ [plan]⟩

/-- `handle_workspace_dependencies` (add.rs lines 1324-1529), reduced to its
dependency actions: per handle, classify this workspace's required
dependencies through `check_project_requirements` (the filesystem probes at
the handle's base path given by `env_of`), then plan and — outside dry-run
mode — execute one install per non-empty scope. -/
def handle_workspace_dependencies (dry_run : Bool)
    (context : WorkspaceContext)
    (deps_by_workspace : List (String × WorkspaceDependencySet))
    (oracle : SemverOracle) (env_of : String → DepsEnv)
    (detected : Option PackageManagerKind) (bun_linker : Option String) :
    DependencyActions :=
  context.handles.foldl
    (fun acc handle =>
      match lookupDependencySet deps_by_workspace handle.id with
      | none => acc
      | some spec =>
        if spec.regular.isEmpty ∧ spec.dev.isEmpty then acc
        else
          let base_path :=
            handle.package_manager_context.workspace_root.getD
              handle.root_abs
          let required :=
            (spec.regular.filter
              (fun d => !(spec.dev.any (fun e => e.1 = d.1)))) ++ spec.dev
          let issues := check_project_requirements oracle
            (env_of base_path) required
          let deps_to_install := spec.regular.filter
            (fun d => issues.any (fun issue => issue.name = d.1))
          let dev_deps_to_install := spec.dev.filter
            (fun d => issues.any (fun issue => issue.name = d.1))
          run_install_phase dry_run dev_deps_to_install
            handle.package_manager_context detected bun_linker
            (run_install_phase dry_run deps_to_install
              handle.package_manager_context detected bun_linker acc))
    ⟨[], []⟩

theorem sync_handle_dry (current_dir : String)
    (component_entries : List ComponentEntry)
    (files : List ComponentFileWithContent) (handle : WorkspaceHandle)
    (st : FS × List FileChange) :
    (sync_handle true current_dir component_entries files handle st).2 =
      st := by
  unfold sync_handle
  split
  · rfl
  · rfl

theorem run_install_phase_dry_executed (to_install : List (String × String))
    (context : PackageManagerContext)
    (detected : Option PackageManagerKind) (bun_linker : Option String)
    (acc : DependencyActions) :
    (run_install_phase true to_install context detected
      bun_linker acc).executed = acc.executed := by
  unfold run_install_phase
  split
  · rfl
  · split
    · rfl
    · rfl

/-- C8. With the dry-run flag set, the add pipeline's write and install
phases have no effects: `write_component_files` leaves the filesystem and
the change log untouched (in particular an initially empty change log stays
empty), `sync_component_exports` still computes every barrel update but
writes nothing and records nothing, and `handle_workspace_dependencies`
still constructs (and displays) install plans through
`plan_dependency_install` but executes none of them — no subprocess is
spawned. -/
theorem dry_run_no_side_effects :
    (∀ (files : List ComponentFileWithContent) (fs : FS)
      (changes : List FileChange),
      write_component_files files true fs changes = (fs, changes)) ∧
    (∀ (context : WorkspaceContext)
      (component_entries : List ComponentEntry)
      (files : List ComponentFileWithContent) (fs : FS)
      (changes : List FileChange),
      (sync_component_exports true context component_entries files fs
        changes).2.1 = fs ∧
      (sync_component_exports true context component_entries files fs
        changes).2.2 = changes) ∧
    (∀ (context : WorkspaceContext)
      (deps_by_workspace : List (String × WorkspaceDependencySet))
      (oracle : SemverOracle) (env_of : String → DepsEnv)
      (detected : Option PackageManagerKind) (bun_linker : Option String),
      (handle_workspace_dependencies true context deps_by_workspace oracle
        env_of detected bun_linker).executed = [] ∧
      (handle_workspace_dependencies false context deps_by_workspace oracle
        env_of detected bun_linker).planned =
        (handle_workspace_dependencies true context deps_by_workspace
          oracle env_of detected bun_linker).planned) := by
  refine ⟨?_, ?_, ?_⟩
  · intro files fs changes
    suffices h : ∀ st : FS × List FileChange,
        files.foldl (writeOneComponentFile true) st = st by
      exact h (fs, changes)
    induction files with
    | nil => intro st; rfl
    | cons f rest ih =>
        intro st
        rw [List.foldl_cons]
        rw [show writeOneComponentFile true st f = st from rfl]
        exact ih st
  · intro context component_entries files fs changes
    unfold sync_component_exports
    split
    · exact ⟨rfl, rfl⟩
    · suffices h : ∀ (hs : List WorkspaceHandle)
          (acc : List ExportUpdate × FS × List FileChange),
          ((hs.foldl
            (fun acc handle =>
              match sync_handle true context.current_dir component_entries
                  files handle (acc.2.1, acc.2.2) with
              | (some update, st') => (acc.1 ++ [update], st'.1, st'.2)
              | (none, st') => (acc.1, st'.1, st'.2))
            acc).2.1 = acc.2.1 ∧
           (hs.foldl
            (fun acc handle =>
              match sync_handle true context.current_dir component_entries
                  files handle (acc.2.1, acc.2.2) with
              | (some update, st') => (acc.1 ++ [update], st'.1, st'.2)
              | (none, st') => (acc.1, st'.1, st'.2))
            acc).2.2 = acc.2.2) by
        exact h context.handles ([], fs, changes)
      intro hs
      induction hs with
      | nil => intro acc; exact ⟨rfl, rfl⟩
      | cons handle rest ih =>
          intro acc
          rw [List.foldl_cons]
          rcases hsh : sync_handle true context.current_dir
              component_entries files handle (acc.2.1, acc.2.2)
            with ⟨upd, st'⟩
          have hst : st' = (acc.2.1, acc.2.2) := by
            have hdry := sync_handle_dry context.current_dir
              component_entries files handle (acc.2.1, acc.2.2)
            rw [hsh] at hdry
            exact hdry
          rcases upd with _ | update
          · simp only [hsh]
            obtain ⟨h1, h2⟩ := ih (acc.1, st'.1, st'.2)
            rw [h1, h2, hst]
            exact ⟨rfl, rfl⟩
          · simp only [hsh]
            obtain ⟨h1, h2⟩ := ih (acc.1 ++ [update], st'.1, st'.2)
            rw [h1, h2, hst]
            exact ⟨rfl, rfl⟩
  · intro context deps_by_workspace oracle env_of detected bun_linker
    constructor
    · unfold handle_workspace_dependencies
      suffices h : ∀ (hs : List WorkspaceHandle) (acc : DependencyActions),
          (hs.foldl
            (fun acc handle =>
              match lookupDependencySet deps_by_workspace handle.id with
              | none => acc
              | some spec =>
                if spec.regular.isEmpty ∧ spec.dev.isEmpty then acc
                else
                  run_install_phase true (spec.dev.filter
                    (fun d => (check_project_requirements oracle
                      (env_of
                        (handle.package_manager_context.workspace_root.getD
                          handle.root_abs))
                      ((spec.regular.filter
                        (fun d => !(spec.dev.any (fun e => e.1 = d.1)))) ++
                        spec.dev)).any
                      (fun issue => issue.name = d.1)))
                    handle.package_manager_context detected bun_linker
                    (run_install_phase true (spec.regular.filter
                      (fun d => (check_project_requirements oracle
                        (env_of
                          (handle.package_manager_context.workspace_root.getD
                            handle.root_abs))
                        ((spec.regular.filter
                          (fun d =>
                            !(spec.dev.any (fun e => e.1 = d.1)))) ++
                          spec.dev)).any
                        (fun issue => issue.name = d.1)))
                      handle.package_manager_context detected bun_linker
                      acc))
            acc).executed = acc.executed by
        exact h context.handles ⟨[], []⟩
      intro hs
      induction hs with
      | nil => intro acc; rfl
      | cons handle rest ih =>
          intro acc
          rw [List.foldl_cons]
          rcases hld : lookupDependencySet deps_by_workspace handle.id
            with _ | spec
          · simp only [hld]
            exact ih acc
          · simp only [hld]
            by_cases hempty : spec.regular.isEmpty ∧ spec.dev.isEmpty
            · rw [if_pos hempty]
              exact ih acc
            · rw [if_neg hempty]
              rw [ih _]
              rw [run_install_phase_dry_executed,
                run_install_phase_dry_executed]
    · unfold handle_workspace_dependencies
      suffices h : ∀ (hs : List WorkspaceHandle)
          (acc1 acc2 : DependencyActions),
          acc1.planned = acc2.planned →
          (hs.foldl (fun acc handle =>
              match lookupDependencySet deps_by_workspace handle.id with
              | none => acc
              | some spec =>
                if spec.regular.isEmpty ∧ spec.dev.isEmpty then acc
                else
                  run_install_phase false (spec.dev.filter
                    (fun d => (check_project_requirements oracle
                      (env_of
                        (handle.package_manager_context.workspace_root.getD
                          handle.root_abs))
                      ((spec.regular.filter
                        (fun d => !(spec.dev.any (fun e => e.1 = d.1)))) ++
                        spec.dev)).any
                      (fun issue => issue.name = d.1)))
                    handle.package_manager_context detected bun_linker
                    (run_install_phase false (spec.regular.filter
                      (fun d => (check_project_requirements oracle
                        (env_of
                          (handle.package_manager_context.workspace_root.getD
                            handle.root_abs))
                        ((spec.regular.filter
                          (fun d =>
                            !(spec.dev.any (fun e => e.1 = d.1)))) ++
                          spec.dev)).any
                        (fun issue => issue.name = d.1)))
                      handle.package_manager_context detected bun_linker
                      acc))
            acc1).planned =
          (hs.foldl (fun acc handle =>
              match lookupDependencySet deps_by_workspace handle.id with
              | none => acc
              | some spec =>
                if spec.regular.isEmpty ∧ spec.dev.isEmpty then acc
                else
                  run_install_phase true (spec.dev.filter
                    (fun d => (check_project_requirements oracle
                      (env_of
                        (handle.package_manager_context.workspace_root.getD
                          handle.root_abs))
                      ((spec.regular.filter
                        (fun d => !(spec.dev.any (fun e => e.1 = d.1)))) ++
                        spec.dev)).any
                      (fun issue => issue.name = d.1)))
                    handle.package_manager_context detected bun_linker
                    (run_install_phase true (spec.regular.filter
                      (fun d => (check_project_requirements oracle
                        (env_of
                          (handle.package_manager_context.workspace_root.getD
                            handle.root_abs))
                        ((spec.regular.filter
                          (fun d =>
                            !(spec.dev.any (fun e => e.1 = d.1)))) ++
                          spec.dev)).any
                        (fun issue => issue.name = d.1)))
                      handle.package_manager_context detected bun_linker
                      acc))
            acc2).planned by
        exact h context.handles ⟨[], []⟩ ⟨[], []⟩ rfl
      have hphase : ∀ (to_install : List (String × String))
          (pmc : PackageManagerContext) (a1 a2 : DependencyActions),
          a1.planned = a2.planned →
          (run_install_phase false to_install pmc detected
            bun_linker a1).planned =
          (run_install_phase true to_install pmc detected
            bun_linker a2).planned := by
        intro to_install pmc a1 a2 hp
        unfold run_install_phase
        split
        · exact hp
        · split
          · exact hp
          · simp [hp]
      intro hs
      induction hs with
      | nil => intro acc1 acc2 hp; exact hp
      | cons handle rest ih =>
          intro acc1 acc2 hp
          rw [List.foldl_cons, List.foldl_cons]
          rcases hld : lookupDependencySet deps_by_workspace handle.id
            with _ | spec
          · simp only [hld]
            exact ih acc1 acc2 hp
          · simp only [hld]
            by_cases hempty : spec.regular.isEmpty ∧ spec.dev.isEmpty
            · rw [if_pos hempty, if_pos hempty]
              exact ih acc1 acc2 hp
            · rw [if_neg hempty, if_neg hempty]
              exact ih _ _ (hphase _ _ _ _ (hphase _ _ _ _ hp))

end NoctaUi
